import Mathlib

/-!
Shallow embedding of the temporal aggregation engine of the KiadasReact
personal-finance application (single source file `src/App.js`), together
with proofs relating the embedded code to its natural-language
specification.

Modelling conventions:
* JavaScript numbers are modelled as `Option ℚ`: `some q` is an ordinary
  numeric value, `none` stands for the non-numeric results (`NaN`, and
  arithmetic on a missing/`undefined` field, which yields `NaN`).
  `jsAdd`/`jsSub` propagate `none` exactly as JS arithmetic propagates
  `NaN`.  Binary floating point is abstracted by ℚ.
* Calendar dates (ISO `YYYY-MM-DD` strings parsed with `new Date`) are
  modelled as a `Date` structure of year/month/day numbers; chronological
  comparison of the JS `Date` values is the lexicographic order on
  (year, month, day).  `getFullYear()`/`getMonth()` are the `y`/`m`
  projections (the uniform 0-based shift of `getMonth()` is dropped, which
  is sound because months are only ever compared with each other).
* JS `Map` objects (and plain objects used as dictionaries with
  non-index string keys) are modelled as association lists in insertion
  order: `set` overwrites in place or appends, `get` is the first lookup,
  iteration (`forEach` / `Object.entries`) walks the list.
* `Array.prototype.sort(cmp)` (stable in modern JS) is modelled by the
  stable `List.mergeSort` with the Boolean relation `cmp a b ≤ 0`.
-/

/-- JS number: `some q` is a numeric value, `none` is `NaN`
(including the `NaN` produced by arithmetic on a missing field). -/
def JsNum : Type := Option ℚ

instance : DecidableEq JsNum := inferInstanceAs (DecidableEq (Option ℚ))

instance : Repr JsNum := inferInstanceAs (Repr (Option ℚ))

/-- JS `+` on numbers: `NaN` is absorbing. -/
def jsAdd (a b : JsNum) : JsNum :=
  match a, b with
  | some x, some y => some (x + y)
  | _, _ => none

/-- JS `-` on numbers: `NaN` is absorbing. -/
def jsSub (a b : JsNum) : JsNum :=
  match a, b with
  | some x, some y => some (x - y)
  | _, _ => none

/-- JS `v || 0` applied to an optional map lookup of a JS number:
a missing key, `NaN` and `0` are falsy and give `0`, any other number is
returned unchanged.  (For a numeric `x`, `x || 0` is `x` even when
`x = 0`, so the falsy-zero case folds into the identity.) -/
def jsOrZero (v : Option JsNum) : JsNum :=
  match v with
  | some (some x) => some x
  | _ => some 0

/-- `parseFloat(x.toFixed(2))`: rounding to two decimal places
(half away from the smaller value, matching `toFixed` on the exact
decimal values that occur here). -/
def round2 (q : ℚ) : ℚ := ((⌊q * 100 + 1 / 2⌋ : ℤ) : ℚ) / 100

/-- A calendar date, the parse of an ISO `YYYY-MM-DD` string. -/
structure Date where
  y : ℕ
  m : ℕ
  d : ℕ
  deriving DecidableEq, Repr

/-- Chronological comparison of JS `Date` values is lexicographic on
(year, month, day). -/
def Date.toLexTriple (x : Date) : ℕ ×ₗ (ℕ ×ₗ ℕ) :=
  toLex (x.y, toLex (x.m, x.d))

theorem Date.toLexTriple_injective : Function.Injective Date.toLexTriple := by
  intro a b h
  cases a; cases b
  have h1 := congrArg ofLex h
  simp only [Date.toLexTriple, ofLex_toLex, Prod.mk.injEq] at h1
  obtain ⟨hy, h2⟩ := h1
  have h3 := congrArg ofLex h2
  simp only [ofLex_toLex, Prod.mk.injEq] at h3
  obtain ⟨hm, hd⟩ := h3
  simp [hy, hm, hd]

instance : LinearOrder Date :=
  LinearOrder.lift' Date.toLexTriple Date.toLexTriple_injective

theorem Date.le_def (a b : Date) :
    a ≤ b ↔ a.y < b.y ∨ (a.y = b.y ∧ (a.m < b.m ∨ (a.m = b.m ∧ a.d ≤ b.d))) := by
  show a.toLexTriple ≤ b.toLexTriple ↔ _
  simp [Date.toLexTriple, Prod.Lex.le_iff]

theorem Date.lt_def (a b : Date) :
    a < b ↔ a.y < b.y ∨ (a.y = b.y ∧ (a.m < b.m ∨ (a.m = b.m ∧ a.d < b.d))) := by
  rw [lt_iff_le_not_le, Date.le_def, Date.le_def]
  constructor
  · rintro ⟨h1, h2⟩
    rcases h1 with h | ⟨hy, h⟩
    · exact Or.inl h
    · rcases h with h | ⟨hm, h⟩
      · exact Or.inr ⟨hy, Or.inl h⟩
      · refine Or.inr ⟨hy, Or.inr ⟨hm, ?_⟩⟩
        by_contra h3
        exact h2 (Or.inr ⟨hy.symm, Or.inr ⟨hm.symm, by omega⟩⟩)
  · rintro (h | ⟨hy, h⟩)
    · exact ⟨Or.inl h, by rintro (h2 | ⟨h2, _⟩) <;> omega⟩
    · rcases h with h | ⟨hm, h⟩
      · exact ⟨Or.inr ⟨hy, Or.inl h⟩, by rintro (h2 | ⟨h2, h3 | ⟨h3, _⟩⟩) <;> omega⟩
      · exact ⟨Or.inr ⟨hy, Or.inr ⟨hm, le_of_lt h⟩⟩,
          by rintro (h2 | ⟨h2, h3 | ⟨h3, h4⟩⟩) <;> omega⟩

instance dateDecLe (a b : Date) : Decidable (a ≤ b) :=
  decidable_of_iff _ (Date.le_def a b).symm

instance dateDecLt (a b : Date) : Decidable (a < b) :=
  decidable_of_iff _ (Date.lt_def a b).symm

/-- Boolean form of the chronological order, for sort comparators. -/
def dateLeb (a b : Date) : Bool := decide (a ≤ b)

section JsMap

variable {κ : Type} {ν : Type}

/-- The keys of a map, in insertion order. -/
def mapKeys (m : List (κ × ν)) : List κ := m.map Prod.fst

theorem mapKeys_nil : mapKeys ([] : List (κ × ν)) = [] := rfl

theorem mapKeys_cons (k : κ) (v : ν) (rest : List (κ × ν)) :
    mapKeys ((k, v) :: rest) = k :: mapKeys rest := rfl

variable [DecidableEq κ]

/-- JS `Map.prototype.get` / object index read: first match. -/
def mapGet : List (κ × ν) → κ → Option ν
  | [], _ => none
  | (k', v') :: rest, k => if k' = k then some v' else mapGet rest k

/-- JS `Map.prototype.set` / object index write: overwrite in place,
else append (insertion order is preserved). -/
def mapSet : List (κ × ν) → κ → ν → List (κ × ν)
  | [], k, v => [(k, v)]
  | (k', v') :: rest, k, v =>
      if k' = k then (k, v) :: rest else (k', v') :: mapSet rest k v

theorem mapGet_set_self (m : List (κ × ν)) (k : κ) (v : ν) :
    mapGet (mapSet m k v) k = some v := by
  induction m with
  | nil => simp [mapSet, mapGet]
  | cons p rest ih =>
      obtain ⟨k', v'⟩ := p
      simp only [mapSet]
      by_cases h : k' = k
      · rw [if_pos h]
        simp [mapGet]
      · rw [if_neg h]
        simp only [mapGet]
        rw [if_neg h]
        exact ih

theorem mapGet_set_other (m : List (κ × ν)) (k j : κ) (v : ν) (h : j ≠ k) :
    mapGet (mapSet m k v) j = mapGet m j := by
  induction m with
  | nil =>
      simp only [mapSet, mapGet]
      rw [if_neg (fun hh => h hh.symm)]
  | cons p rest ih =>
      obtain ⟨k', v'⟩ := p
      simp only [mapSet]
      by_cases hk : k' = k
      · rw [if_pos hk]
        simp only [mapGet]
        rw [if_neg (fun hh => h hh.symm), if_neg (by rw [hk]; exact fun hh => h hh.symm)]
      · rw [if_neg hk]
        simp only [mapGet, ih]

theorem mem_mapKeys_set (m : List (κ × ν)) (k j : κ) (v : ν) :
    j ∈ mapKeys (mapSet m k v) ↔ j = k ∨ j ∈ mapKeys m := by
  induction m with
  | nil => simp [mapSet, mapKeys]
  | cons p rest ih =>
      obtain ⟨k', v'⟩ := p
      simp only [mapSet]
      by_cases hk : k' = k
      · rw [if_pos hk]
        rw [mapKeys_cons, mapKeys_cons, List.mem_cons, List.mem_cons, hk]
        tauto
      · rw [if_neg hk]
        rw [mapKeys_cons, mapKeys_cons, List.mem_cons, List.mem_cons]
        rw [ih]
        tauto

theorem mapKeys_set_nodup (m : List (κ × ν)) (k : κ) (v : ν)
    (h : (mapKeys m).Nodup) : (mapKeys (mapSet m k v)).Nodup := by
  induction m with
  | nil => simp [mapSet, mapKeys]
  | cons p rest ih =>
      obtain ⟨k', v'⟩ := p
      rw [mapKeys_cons, List.nodup_cons] at h
      simp only [mapSet]
      by_cases hk : k' = k
      · rw [if_pos hk]
        rw [mapKeys_cons, List.nodup_cons]
        exact ⟨by rw [← hk]; exact h.1, h.2⟩
      · rw [if_neg hk]
        rw [mapKeys_cons, List.nodup_cons]
        refine ⟨fun hmem => ?_, ih h.2⟩
        rcases (mem_mapKeys_set rest k k' v).mp hmem with h' | h'
        · exact hk h'
        · exact h.1 h'

theorem mapGet_eq_none_iff (m : List (κ × ν)) (k : κ) :
    mapGet m k = none ↔ k ∉ mapKeys m := by
  induction m with
  | nil => simp [mapGet, mapKeys]
  | cons p rest ih =>
      obtain ⟨k', v'⟩ := p
      rw [mapKeys_cons]
      simp only [mapGet, List.mem_cons]
      by_cases h : k' = k
      · rw [if_pos h]
        simp [h]
      · rw [if_neg h]
        rw [ih]
        constructor
        · intro hk hor
          rcases hor with h' | h'
          · exact h h'.symm
          · exact hk h'
        · intro hk h'
          exact hk (Or.inr h')

end JsMap

/-! ## Data model (§3 of the spec; record shapes from `App.js`) -/

/-- One valuation point of an asset's `valueHistory`:
`{value, date, type?}` where the optional `type` field carries the
`'contribution'` tag. -/
structure VHEntry where
  value : ℚ
  date : Date
  type : Option String
  deriving DecidableEq, Repr

/-- One element of an asset's `contributions` list. -/
structure Contribution where
  amount : ℚ
  date : Date
  deriving DecidableEq, Repr

/-- An Asset record. -/
structure Asset where
  id : String
  name : String
  type : String
  initialValue : ℚ
  currentValue : ℚ
  contributions : List Contribution
  valueHistory : List VHEntry
  deriving DecidableEq, Repr

/-- An income or expense record (same shape; expenses carry `category`
and the derived `type` tag `"Recurring"`/`"One-Off"`).  `amount` is a
`JsNum` so that a missing or non-numeric amount (`none`) can be
represented.  `endDate = none` models an absent or empty (`''`) end
date (both are falsy in the source's `transaction.endDate ? … : null`). -/
structure Tx where
  id : String
  amount : JsNum
  description : String
  category : String
  type : String
  date : Date
  isRecurring : Bool
  frequency : String
  endDate : Option Date
  deriving DecidableEq, Repr

/-! ## Value History Merger (`calculateNetWorthHistory`, App.js 37–92) -/

/-- `[...(asset.valueHistory || [])].sort((a, b) => new Date(a.date) - new Date(b.date))`:
stable ascending sort of one asset's history by date. -/
def sortHistory (h : List VHEntry) : List VHEntry :=
  h.mergeSort (fun a b => dateLeb a.date b.date)

/-- The inner `Map: assetId -> value`. -/
abbrev InnerMap := List (String × ℚ)

/-- The outer `Map: 'YYYY-MM-DD' -> Map(assetId -> value)`. -/
abbrev DayMap := List (Date × InnerMap)

/-- The body of the first pass for one asset with id `i`: each history
entry (in sorted order) does
`dailyValuesMap.get(date).set(asset.id, entry.value)`, creating the
inner map first when the date is new. -/
def insEntries (i : String) (m : DayMap) : List VHEntry → DayMap
  | [] => m
  | e :: rest =>
      insEntries i (mapSet m e.date (mapSet ((mapGet m e.date).getD []) i e.value)) rest

/-- First pass, one asset: populate its sorted history into the map. -/
def insertAssetEntries (m : DayMap) (a : Asset) : DayMap :=
  insEntries a.id m (sortHistory a.valueHistory)

/-- First pass over all assets (`assets.forEach(...)`). -/
def dailyValuesMap (assets : List Asset) : DayMap :=
  assets.foldl insertAssetEntries []

/-- `Array.from(dailyValuesMap.keys()).sort((a, b) => new Date(a) - new Date(b))`. -/
def uniqueDates (assets : List Asset) : List Date :=
  (mapKeys (dailyValuesMap assets)).mergeSort (fun a b => dateLeb a b)

/-- One point of the aggregated series `{date, totalNetWorth}`. -/
structure NetWorthPoint where
  date : Date
  totalNetWorth : ℚ
  deriving DecidableEq, Repr

/-- The per-date update of `currentAssetValuesAtDate`: for every asset
with an explicit entry on this exact date
(`dailyValuesMap.get(date)?.get(asset.id) !== undefined`), overwrite
its last-known value. -/
def stepDate (assets : List Asset) (dm : DayMap) (d : Date) (cur : InnerMap) : InnerMap :=
  assets.foldl (fun cur a =>
    match (mapGet dm d).bind (fun inner => mapGet inner a.id) with
    | some v => mapSet cur a.id v
    | none => cur) cur

/-- `currentAssetValuesAtDate.forEach(value => { totalNetWorthOnDate += value })`. -/
def mapSumQ (m : InnerMap) : ℚ := m.foldl (fun s p => s + p.2) 0

/-- The walk over the sorted unique dates, pushing
`{date, totalNetWorth: parseFloat(total.toFixed(2))}` for each. -/
def runDates (assets : List Asset) (dm : DayMap) : List Date → InnerMap → List NetWorthPoint
  | [], _ => []
  | d :: ds, cur =>
      let cur' := stepDate assets dm d cur
      ⟨d, round2 (mapSumQ cur')⟩ :: runDates assets dm ds cur'

/-- The merger's result `{chartData, detailedDailyValues}`.  The
source's final conversion of the inner `Map`s to plain objects
(`detailedDailyValues`) preserves keys, values and insertion order, so
it is the identity in this model. -/
structure NetWorthHistory where
  chartData : List NetWorthPoint
  detailedDailyValues : DayMap
  deriving Repr

/-- `calculateNetWorthHistory` (App.js 37–92). -/
def calculateNetWorthHistory (assets : List Asset) : NetWorthHistory :=
  ⟨runDates assets (dailyValuesMap assets) (uniqueDates assets) [],
   dailyValuesMap assets⟩

/-! Specification-side descriptions of the merger (the claims' words):
an asset's entries on/strictly-before/exactly-on a date, in the stable
date-sorted order, and the carried-forward "most recent" value. -/

/-- The asset's history entries dated on or before `d`, sorted. -/
def entriesLE (a : Asset) (d : Date) : List VHEntry :=
  (sortHistory a.valueHistory).filter (fun e => decide (e.date ≤ d))

/-- The asset's most recent recorded value on or before `d`
(ties within a date broken by insertion order, the later entry winning). -/
def lastValLE (a : Asset) (d : Date) : Option ℚ :=
  (entriesLE a d).getLast?.map VHEntry.value

/-- The asset's history entries dated strictly before `d`, sorted. -/
def entriesLT (a : Asset) (d : Date) : List VHEntry :=
  (sortHistory a.valueHistory).filter (fun e => decide (e.date < d))

/-- The asset's most recent recorded value strictly before `d`. -/
def lastValLT (a : Asset) (d : Date) : Option ℚ :=
  (entriesLT a d).getLast?.map VHEntry.value

/-- The asset's history entries dated exactly `d`, in insertion order. -/
def entriesAt (a : Asset) (d : Date) : List VHEntry :=
  (sortHistory a.valueHistory).filter (fun e => decide (e.date = d))

/-- The value recorded by the asset exactly on `d` (last write wins). -/
def lastValAt (a : Asset) (d : Date) : Option ℚ :=
  (entriesAt a d).getLast?.map VHEntry.value

/-- The claim's total at a date: the sum, over all assets having at
least one entry on or before the date, of the most recent such entry's
value; assets with no entry on or before the date contribute nothing. -/
def specTotal (assets : List Asset) (d : Date) : ℚ :=
  ((assets.filter (fun a => (lastValLE a d).isSome)).map
    (fun a => (lastValLE a d).getD 0)).sum

/-! ## Recurrence Activity Evaluator and Monthly Overview aggregation
(`MonthlyOverviewPage`, App.js 702–793) -/

/-- `isTransactionActiveInMonth` (App.js 732–745): month-granularity
activity test for a recurring transaction against the selected month. -/
def isTransactionActiveInMonth (t : Tx) (selectedMonthDate : Date) : Bool :=
  let startDate := t.date
  let startsBeforeOrInSelectedMonth : Bool :=
    decide (startDate.y < selectedMonthDate.y) ||
    (decide (startDate.y = selectedMonthDate.y) && decide (startDate.m ≤ selectedMonthDate.m))
  let endsAfterOrInSelectedMonth : Bool :=
    match t.endDate with
    | none => true
    | some endDate =>
        decide (endDate.y > selectedMonthDate.y) ||
        (decide (endDate.y = selectedMonthDate.y) && decide (endDate.m ≥ selectedMonthDate.m))
  startsBeforeOrInSelectedMonth && endsAfterOrInSelectedMonth

/-- The filter predicate shared by `filteredIncome`/`filteredExpenses`
(App.js 747–773): recurring-Monthly transactions use the evaluator,
everything else is matched by exact (year, month) equality. -/
def monthFilter (t : Tx) (selectedMonthDate : Date) : Bool :=
  if t.isRecurring && decide (t.frequency = "Monthly") then
    isTransactionActiveInMonth t selectedMonthDate
  else
    decide (t.date.y = selectedMonthDate.y) && decide (t.date.m = selectedMonthDate.m)

/-- `filteredIncome` (App.js 747–759): filter, then stable sort
descending by date (`sort((a, b) => new Date(b.date) - new Date(a.date))`). -/
def filteredIncome (income : List Tx) (selectedMonthDate : Date) : List Tx :=
  (income.filter (fun t => monthFilter t selectedMonthDate)).mergeSort
    (fun a b => dateLeb b.date a.date)

/-- `filteredExpenses` (App.js 761–773): same computation on expenses. -/
def filteredExpenses (expenses : List Tx) (selectedMonthDate : Date) : List Tx :=
  (expenses.filter (fun t => monthFilter t selectedMonthDate)).mergeSort
    (fun a b => dateLeb b.date a.date)

/-- `totalMonthlyIncome = filteredIncome.reduce((sum, item) => sum + item.amount, 0)`
(App.js 775). -/
def totalMonthlyIncome (income : List Tx) (selectedMonthDate : Date) : JsNum :=
  (filteredIncome income selectedMonthDate).foldl (fun sum t => jsAdd sum t.amount) (some 0)

/-- `totalMonthlyExpenses` (App.js 776). -/
def totalMonthlyExpenses (expenses : List Tx) (selectedMonthDate : Date) : JsNum :=
  (filteredExpenses expenses selectedMonthDate).foldl (fun sum t => jsAdd sum t.amount) (some 0)

/-- `monthlyBalance = totalMonthlyIncome - totalMonthlyExpenses` (App.js 777). -/
def monthlyBalance (income expenses : List Tx) (selectedMonthDate : Date) : JsNum :=
  jsSub (totalMonthlyIncome income selectedMonthDate)
    (totalMonthlyExpenses expenses selectedMonthDate)

/-- The accumulation `summary[key] = (summary[key] || 0) + exp.amount`
over a transaction list, into a plain object. -/
def summaryFold (key : Tx → String) (l : List Tx) : List (String × JsNum) :=
  l.foldl (fun s e => mapSet s (key e) (jsAdd (jsOrZero (mapGet s (key e))) e.amount)) []

/-- The JS sort comparator value `b - a` on two summary amounts
(a `NaN` comparator result is treated as `+0` by `Array.prototype.sort`). -/
def jsCmpNum (x y : JsNum) : ℚ :=
  match x, y with
  | some a, some b => a - b
  | _, _ => 0

/-- `Object.entries(summary).sort(([, a], [, b]) => b - a)`:
stable sort descending by summed amount. -/
def sortByAmountDesc (l : List (String × JsNum)) : List (String × JsNum) :=
  l.mergeSort (fun p q => decide (jsCmpNum q.2 p.2 ≤ 0))

/-- `expenseSummaryByCategory` (App.js 779–785). -/
def expenseSummaryByCategory (expenses : List Tx) (selectedMonthDate : Date) :
    List (String × JsNum) :=
  sortByAmountDesc (summaryFold (fun e => e.category) (filteredExpenses expenses selectedMonthDate))

/-- `expenseSummaryByType` (App.js 787–793): groups by the stored
`type` field of each filtered expense. -/
def expenseSummaryByType (expenses : List Tx) (selectedMonthDate : Date) :
    List (String × JsNum) :=
  sortByAmountDesc (summaryFold (fun e => e.type) (filteredExpenses expenses selectedMonthDate))

/-- One `years.add(y)` step of the `availableYears` `Set` in insertion
order. -/
def setAdd (l : List ℕ) (y : ℕ) : List ℕ := if y ∈ l then l else l ++ [y]

/-- The `years` `Set` of `availableYears` (App.js 714–726), in
insertion order: current, previous and next year, the year of every
transaction's start date, and the year of the end date of every
*recurring* transaction that has one. -/
def availableYearsSet (income expenses : List Tx) (currentYear : ℕ) : List ℕ :=
  let years := setAdd (setAdd (setAdd [] currentYear) (currentYear - 1)) (currentYear + 1)
  let years := income.foldl (fun s t => setAdd s t.date.y) years
  let years := expenses.foldl (fun s t => setAdd s t.date.y) years
  let years := (income.filter (fun t => t.isRecurring && t.endDate.isSome)).foldl
      (fun s t => setAdd s ((t.endDate.map Date.y).getD 0)) years
  (expenses.filter (fun t => t.isRecurring && t.endDate.isSome)).foldl
      (fun s t => setAdd s ((t.endDate.map Date.y).getD 0)) years

/-- `availableYears` (App.js 713–729):
`Array.from(years).sort((a, b) => b - a)`, descending. -/
def availableYears (income expenses : List Tx) (currentYear : ℕ) : List ℕ :=
  (availableYearsSet income expenses currentYear).mergeSort (fun a b => decide (b ≤ a))

/-! ## Dashboard aggregation (`DashboardPage`, App.js 1040–1098) -/

/-- `isTransactionActiveInCurrentMonth` (App.js 1046–1059), with
`currentMonth`/`currentYear` taken from `today`. -/
def isTransactionActiveInCurrentMonth (t : Tx) (today : Date) : Bool :=
  let startDate := t.date
  let startsBeforeOrInCurrentMonth : Bool :=
    decide (startDate.y < today.y) ||
    (decide (startDate.y = today.y) && decide (startDate.m ≤ today.m))
  let endsAfterOrInCurrentMonth : Bool :=
    match t.endDate with
    | none => true
    | some endDate =>
        decide (endDate.y > today.y) ||
        (decide (endDate.y = today.y) && decide (endDate.m ≥ today.m))
  startsBeforeOrInCurrentMonth && endsAfterOrInCurrentMonth

/-- The dashboard's filter predicate (App.js 1062–1068): note the
one-off branch tests month before year, unlike the overview's. -/
def dashMonthFilter (t : Tx) (today : Date) : Bool :=
  if t.isRecurring && decide (t.frequency = "Monthly") then
    isTransactionActiveInCurrentMonth t today
  else
    decide (t.date.m = today.m) && decide (t.date.y = today.y)

/-- `currentMonthIncome` (App.js 1061–1070). -/
def currentMonthIncome (income : List Tx) (today : Date) : JsNum :=
  (income.filter (fun t => dashMonthFilter t today)).foldl
    (fun sum t => jsAdd sum t.amount) (some 0)

/-- `currentMonthExpenses` (App.js 1072–1081). -/
def currentMonthExpenses (expenses : List Tx) (today : Date) : JsNum :=
  (expenses.filter (fun t => dashMonthFilter t today)).foldl
    (fun sum t => jsAdd sum t.amount) (some 0)

/-- `currentMonthBalance = currentMonthIncome - currentMonthExpenses`
(App.js 1083). -/
def currentMonthBalance (income expenses : List Tx) (today : Date) : JsNum :=
  jsSub (currentMonthIncome income today) (currentMonthExpenses expenses today)

/-! ## Net Worth Projection Simulator (`projectionData`, App.js 379–400) -/

/-- The inner `for (month = 0; month < 12; ...)` loop:
`value += monthlyContribution; value *= (1 + monthlyGrowthRate)`,
iterated a given number of times. -/
def projMonths (monthlyContribution monthlyGrowthRate : ℚ) : ℕ → ℚ → ℚ
  | 0, v => v
  | n + 1, v =>
      projMonths monthlyContribution monthlyGrowthRate n
        ((v + monthlyContribution) * (1 + monthlyGrowthRate))

/-- The outer `for (year = 1; year <= projectionPeriodYears; ...)` loop,
pushing `{year: currentYear + year, projectedNetWorth: parseFloat(v.toFixed(2))}`
after each block of 12 months; the unrounded value is carried. -/
def projYears (c rate : ℚ) (currentYear : ℕ) : ℕ → ℕ → ℚ → List (ℕ × ℚ)
  | 0, _, _ => []
  | n + 1, k, v =>
      let v' := projMonths c rate 12 v
      (currentYear + k, round2 v') :: projYears c rate currentYear n (k + 1) v'

/-- `projectionData` (App.js 379–400), for a loaded, non-null net worth:
the "now" point followed by one point per projected year. -/
def projectionData (currentNetWorth annualGrowthRate monthlyContribution : ℚ)
    (projectionPeriodYears currentYear : ℕ) : List (ℕ × ℚ) :=
  (currentYear, round2 currentNetWorth) ::
    projYears monthlyContribution (annualGrowthRate / 100 / 12) currentYear
      projectionPeriodYears 1 currentNetWorth

/-! ## Asset lifecycle operations (App.js 1370–1470) -/

/-- The record created by `addAsset` (App.js 1380–1387): seeded with a
single `valueHistory` entry at the user-chosen initial date. -/
def addAssetRecord (id name type : String) (initialValue : ℚ) (initialDate : Date) : Asset :=
  ⟨id, name, type, initialValue, initialValue, [], [⟨initialValue, initialDate, none⟩]⟩

/-- `updateAssetValue` (App.js 1397–1427): append a history entry dated
`today` (`new Date().toISOString().split('T')[0]`) and set
`currentValue` to the new value. -/
def updateAssetValue (a : Asset) (newValue : ℚ) (today : Date) : Asset :=
  { a with currentValue := newValue,
           valueHistory := a.valueHistory ++ [⟨newValue, today, none⟩] }

/-- `addContribution` (App.js 1429–1470): append the contribution, add
its amount to `currentValue`, and append a `'contribution'`-tagged
history entry at the user-chosen contribution date. -/
def addContribution (a : Asset) (amount : ℚ) (contributionDate : Date) : Asset :=
  let newCurrentValue := a.currentValue + amount
  { a with contributions := a.contributions ++ [⟨amount, contributionDate⟩],
           currentValue := newCurrentValue,
           valueHistory := a.valueHistory ++ [⟨newCurrentValue, contributionDate, some "contribution"⟩] }

/-- One step of scanning for the chronologically latest history entry:
a later-or-equal date replaces the current best, so ties are broken by
insertion order (the later entry wins). -/
def latestStep (acc : Option VHEntry) (e : VHEntry) : Option VHEntry :=
  match acc with
  | none => some e
  | some b => if b.date ≤ e.date then some e else some b

/-- The chronologically latest history entry, ties broken by insertion
order (the later entry wins). -/
def latestEntry (h : List VHEntry) : Option VHEntry :=
  h.foldl latestStep none

/-- The `newExpense` object built by `addExpense` (App.js 1597–1606):
`type`, `frequency` and `endDate` are derived from `isRecurring`. -/
def mkNewExpense (id : String) (amount : JsNum) (description category : String)
    (date : Date) (isRecurring : Bool) (frequency : String) (endDate : Option Date) : Tx :=
  ⟨id, amount, description, category,
   if isRecurring then "Recurring" else "One-Off",
   date, isRecurring,
   if isRecurring then frequency else "",
   if isRecurring && endDate.isSome then endDate else none⟩

/-! ## Spec-side (year, month) order (§4.2 of the spec) -/

/-- A date's (year, month) projection (day discarded). -/
def ym (d : Date) : ℕ × ℕ := (d.y, d.m)

/-- The spec's `≤` on (year, month) pairs: year first, then month. -/
def ymLe (p q : ℕ × ℕ) : Prop := p.1 < q.1 ∨ (p.1 = q.1 ∧ p.2 ≤ q.2)

instance (p q : ℕ × ℕ) : Decidable (ymLe p q) := by
  unfold ymLe
  infer_instance

/-! ## C3: the Recurrence Activity Evaluator matches the spec's rule -/

/-- C3: for every transaction and target month, the filter used by the
Monthly Overview is active exactly as the spec states: a recurring
transaction with frequency "Monthly" is active iff
start ≤ target ≤ endDate in (year, month) lexicographic order (an
absent end date imposing no upper bound); every other transaction is
active iff the target equals its own (year, month). -/
theorem monthFilter_spec (t : Tx) (target : Date) :
    monthFilter t target = true ↔
      (if t.isRecurring = true ∧ t.frequency = "Monthly" then
        ymLe (ym t.date) (ym target) ∧
          ∀ e, t.endDate = some e → ymLe (ym target) (ym e)
      else ym t.date = ym target) := by
  obtain ⟨id, amount, descr, cat, ty, date, isRec, freq, endD⟩ := t
  cases isRec <;> by_cases hf : freq = "Monthly" <;> cases endD <;>
    simp [monthFilter, isTransactionActiveInMonth, ym, ymLe, hf, Prod.ext_iff] <;>
    omega

/-! ## C8: endDate before start date -/

/-- A recurring-monthly transaction whose `endDate` is strictly earlier
than its start date but inside the same calendar month. -/
def c8tx : Tx :=
  ⟨"t8", none, "", "", "Recurring", ⟨2024, 3, 15⟩, true, "Monthly", some ⟨2024, 3, 10⟩⟩

/-- C8 counterexample: a recurring-monthly transaction with
endDate < date is NOT inactive in every month — when the end date falls
in the same calendar month as the start date, the month-granularity
comparison makes it active in that month. -/
theorem c8_sameMonth_still_active :
    c8tx.isRecurring = true ∧ c8tx.frequency = "Monthly" ∧
    c8tx.endDate = some ⟨2024, 3, 10⟩ ∧ ((⟨2024, 3, 10⟩ : Date) < c8tx.date) ∧
    isTransactionActiveInMonth c8tx ⟨2024, 3, 1⟩ = true := by
  refine ⟨rfl, rfl, rfl, by decide, by decide⟩

/-- C8 (amended): if the (year, month) of `endDate` is strictly earlier
than the (year, month) of the start date, the Evaluator yields inactive
for every target month (and, being a total function, it rejects
nothing). -/
theorem isTransactionActiveInMonth_neverActive (t : Tx) (e : Date)
    (he : t.endDate = some e)
    (hlt : e.y < t.date.y ∨ (e.y = t.date.y ∧ e.m < t.date.m)) :
    ∀ target : Date, isTransactionActiveInMonth t target = false := by
  intro target
  rw [Bool.eq_false_iff]
  intro h
  unfold isTransactionActiveInMonth at h
  rw [he] at h
  simp only [Bool.and_eq_true, Bool.or_eq_true, decide_eq_true_eq] at h
  omega

/-- A recurring-monthly transaction ending a full month before it starts. -/
def c8tx2 : Tx :=
  ⟨"t8b", none, "", "", "Recurring", ⟨2024, 5, 1⟩, true, "Monthly", some ⟨2024, 3, 31⟩⟩

/-- Witness for the amended C8 theorem at a concrete transaction and month. -/
theorem isTransactionActiveInMonth_neverActive_witness :
    isTransactionActiveInMonth c8tx2 ⟨2024, 4, 1⟩ = false :=
  isTransactionActiveInMonth_neverActive c8tx2 ⟨2024, 3, 31⟩ rfl
    (Or.inr ⟨rfl, by decide⟩) ⟨2024, 4, 1⟩

/-! ## C9: the available-years list -/

theorem mem_setAdd_self (l : List ℕ) (y : ℕ) : y ∈ setAdd l y := by
  unfold setAdd
  by_cases h : y ∈ l
  · rw [if_pos h]; exact h
  · rw [if_neg h]; simp

theorem mem_setAdd_of_mem (l : List ℕ) (y x : ℕ) (h : x ∈ l) : x ∈ setAdd l y := by
  unfold setAdd
  split <;> simp [h]

theorem mem_foldl_setAdd_of_mem {α : Type} (f : α → ℕ) (l : List α) (s : List ℕ)
    (x : ℕ) (h : x ∈ s) : x ∈ l.foldl (fun s t => setAdd s (f t)) s := by
  induction l generalizing s with
  | nil => exact h
  | cons a rest ih => exact ih _ (mem_setAdd_of_mem _ _ _ h)

theorem mem_foldl_setAdd_self {α : Type} (f : α → ℕ) (l : List α) (s : List ℕ)
    (a : α) (ha : a ∈ l) : f a ∈ l.foldl (fun s t => setAdd s (f t)) s := by
  induction l generalizing s with
  | nil => cases ha
  | cons b rest ih =>
      rcases List.mem_cons.mp ha with h | h
      · subst h
        rw [List.foldl_cons]
        exact mem_foldl_setAdd_of_mem _ _ _ _ (mem_setAdd_self _ _)
      · rw [List.foldl_cons]
        exact ih _ h

/-- Sorting does not change membership. -/
theorem mem_availableYears_iff (income expenses : List Tx) (cy x : ℕ) :
    x ∈ availableYears income expenses cy ↔ x ∈ availableYearsSet income expenses cy :=
  (List.mergeSort_perm _ _).mem_iff

/-- C9 (amended): the available-years list always contains the current,
previous and next calendar year and the year of every transaction's
start date, and the year of the end date of every *recurring*
transaction that has one; in particular it is never empty.  (End dates
of non-recurring records are not collected — see the counterexample.) -/
theorem availableYears_coverage (income expenses : List Tx) (cy : ℕ) :
    cy ∈ availableYears income expenses cy ∧
    cy - 1 ∈ availableYears income expenses cy ∧
    cy + 1 ∈ availableYears income expenses cy ∧
    (∀ t ∈ income, t.date.y ∈ availableYears income expenses cy) ∧
    (∀ t ∈ expenses, t.date.y ∈ availableYears income expenses cy) ∧
    (∀ t ∈ income, t.isRecurring = true → ∀ e, t.endDate = some e →
      e.y ∈ availableYears income expenses cy) ∧
    (∀ t ∈ expenses, t.isRecurring = true → ∀ e, t.endDate = some e →
      e.y ∈ availableYears income expenses cy) ∧
    availableYears income expenses cy ≠ [] := by
  have base : ∀ x, x ∈ setAdd (setAdd (setAdd [] cy) (cy - 1)) (cy + 1) →
      x ∈ availableYearsSet income expenses cy := by
    intro x hx
    unfold availableYearsSet
    exact mem_foldl_setAdd_of_mem _ _ _ _ (mem_foldl_setAdd_of_mem _ _ _ _
      (mem_foldl_setAdd_of_mem _ _ _ _ (mem_foldl_setAdd_of_mem _ _ _ _ hx)))
  have hcy : cy ∈ availableYears income expenses cy := by
    rw [mem_availableYears_iff]
    exact base _ (mem_setAdd_of_mem _ _ _ (mem_setAdd_of_mem _ _ _ (mem_setAdd_self _ _)))
  refine ⟨hcy, ?_, ?_, ?_, ?_, ?_, ?_, List.ne_nil_of_mem hcy⟩
  · rw [mem_availableYears_iff]
    exact base _ (mem_setAdd_of_mem _ _ _ (mem_setAdd_self _ _))
  · rw [mem_availableYears_iff]
    exact base _ (mem_setAdd_self _ _)
  · intro t ht
    rw [mem_availableYears_iff]
    unfold availableYearsSet
    exact mem_foldl_setAdd_of_mem _ _ _ _ (mem_foldl_setAdd_of_mem _ _ _ _
      (mem_foldl_setAdd_of_mem _ _ _ _ (mem_foldl_setAdd_self _ _ _ _ ht)))
  · intro t ht
    rw [mem_availableYears_iff]
    unfold availableYearsSet
    exact mem_foldl_setAdd_of_mem _ _ _ _ (mem_foldl_setAdd_of_mem _ _ _ _
      (mem_foldl_setAdd_self _ _ _ _ ht))
  · intro t ht hrec e he
    rw [mem_availableYears_iff]
    unfold availableYearsSet
    have hmem : t ∈ income.filter (fun t => t.isRecurring && t.endDate.isSome) :=
      List.mem_filter.mpr ⟨ht, by simp [hrec, he]⟩
    have : ((t.endDate.map Date.y).getD 0) = e.y := by simp [he]
    rw [← this]
    exact mem_foldl_setAdd_of_mem _ _ _ _ (mem_foldl_setAdd_self _ _ _ _ hmem)
  · intro t ht hrec e he
    rw [mem_availableYears_iff]
    unfold availableYearsSet
    have hmem : t ∈ expenses.filter (fun t => t.isRecurring && t.endDate.isSome) :=
      List.mem_filter.mpr ⟨ht, by simp [hrec, he]⟩
    have : ((t.endDate.map Date.y).getD 0) = e.y := by simp [he]
    rw [← this]
    exact mem_foldl_setAdd_self _ _ _ _ hmem

/-- A one-off (non-recurring) transaction that nevertheless carries an
end date, in a year far from its start year. -/
def c9tx : Tx :=
  ⟨"t9", none, "", "", "One-Off", ⟨2024, 5, 1⟩, false, "", some ⟨2030, 1, 1⟩⟩

/-- C9 counterexample: the year of a non-recurring transaction's end
date is NOT offered by `availableYears` — the source only collects end
dates of recurring transactions. -/
theorem c9_nonRecurring_endDate_year_missing :
    c9tx.endDate = some ⟨2030, 1, 1⟩ ∧ (2030 : ℕ) ∉ availableYears [c9tx] [] 2025 := by
  refine ⟨rfl, ?_⟩
  rw [mem_availableYears_iff]
  decide

/-- A recurring transaction ending in 2030, used to witness the
amended C9 coverage theorem at a concrete input. -/
def c9txRec : Tx :=
  ⟨"t9r", none, "", "", "Recurring", ⟨2024, 5, 1⟩, true, "Monthly", some ⟨2030, 1, 1⟩⟩

/-- Witness for the amended C9 theorem: at a concrete collection the
recurring end-date year 2030 is selectable. -/
theorem availableYears_coverage_witness :
    (2030 : ℕ) ∈ availableYears [c9txRec] [] 2025 :=
  (availableYears_coverage [c9txRec] [] 2025).2.2.2.2.2.1 c9txRec
    (List.mem_singleton.mpr rfl) rfl ⟨2030, 1, 1⟩ rfl

/-! ## C10: Dashboard and Monthly Overview agree on the current month -/

theorem jsAdd_right_comm (s a b : JsNum) :
    jsAdd (jsAdd s a) b = jsAdd (jsAdd s b) a := by
  cases s <;> cases a <;> cases b <;> simp [jsAdd, add_right_comm]

/-- Folding `jsAdd` of a projection over a list is invariant under
permutation (in particular under the stable date sort). -/
theorem foldl_jsAdd_perm {α : Type} (f : α → JsNum) {l₁ l₂ : List α}
    (h : l₁.Perm l₂) :
    ∀ init : JsNum,
      l₁.foldl (fun s x => jsAdd s (f x)) init =
      l₂.foldl (fun s x => jsAdd s (f x)) init := by
  induction h with
  | nil => intro init; rfl
  | cons x _ ih =>
      intro init
      rw [List.foldl_cons, List.foldl_cons]
      exact ih _
  | swap x y l =>
      intro init
      rw [List.foldl_cons, List.foldl_cons, List.foldl_cons, List.foldl_cons,
        jsAdd_right_comm]
  | trans _ _ ih1 ih2 =>
      intro init
      rw [ih1, ih2]

theorem isTransactionActiveInCurrentMonth_eq (t : Tx) (today target : Date)
    (hy : today.y = target.y) (hm : today.m = target.m) :
    isTransactionActiveInCurrentMonth t today = isTransactionActiveInMonth t target := by
  unfold isTransactionActiveInCurrentMonth isTransactionActiveInMonth
  rw [hy, hm]

theorem dashMonthFilter_eq (t : Tx) (today target : Date)
    (hy : today.y = target.y) (hm : today.m = target.m) :
    dashMonthFilter t today = monthFilter t target := by
  unfold dashMonthFilter monthFilter
  by_cases hc : (t.isRecurring && decide (t.frequency = "Monthly")) = true
  · rw [if_pos hc, if_pos hc, isTransactionActiveInCurrentMonth_eq t today target hy hm]
  · rw [if_neg hc, if_neg hc, hy, hm, Bool.and_comm]

theorem currentMonthIncome_eq (income : List Tx) (today target : Date)
    (hy : today.y = target.y) (hm : today.m = target.m) :
    currentMonthIncome income today = totalMonthlyIncome income target := by
  unfold currentMonthIncome totalMonthlyIncome filteredIncome
  have hfil : income.filter (fun t => dashMonthFilter t today) =
      income.filter (fun t => monthFilter t target) :=
    List.filter_congr (fun t _ => by rw [dashMonthFilter_eq t today target hy hm])
  rw [hfil]
  exact (foldl_jsAdd_perm Tx.amount (List.mergeSort_perm _ _) _).symm

theorem currentMonthExpenses_eq (expenses : List Tx) (today target : Date)
    (hy : today.y = target.y) (hm : today.m = target.m) :
    currentMonthExpenses expenses today = totalMonthlyExpenses expenses target := by
  unfold currentMonthExpenses totalMonthlyExpenses filteredExpenses
  have hfil : expenses.filter (fun t => dashMonthFilter t today) =
      expenses.filter (fun t => monthFilter t target) :=
    List.filter_congr (fun t _ => by rw [dashMonthFilter_eq t today target hy hm])
  rw [hfil]
  exact (foldl_jsAdd_perm Tx.amount (List.mergeSort_perm _ _) _).symm

/-- C10: when the Monthly Overview's selected month is the current
month, the Dashboard's independently implemented activity check agrees
with the Monthly Overview's on every transaction, and the two pages'
monthly income, expense and balance figures coincide. -/
theorem dashboard_overview_agreement (income expenses : List Tx) (today target : Date)
    (hy : today.y = target.y) (hm : today.m = target.m) :
    (∀ t : Tx, isTransactionActiveInCurrentMonth t today = isTransactionActiveInMonth t target) ∧
    (∀ t : Tx, dashMonthFilter t today = monthFilter t target) ∧
    currentMonthIncome income today = totalMonthlyIncome income target ∧
    currentMonthExpenses expenses today = totalMonthlyExpenses expenses target ∧
    currentMonthBalance income expenses today = monthlyBalance income expenses target := by
  refine ⟨fun t => isTransactionActiveInCurrentMonth_eq t today target hy hm,
    fun t => dashMonthFilter_eq t today target hy hm,
    currentMonthIncome_eq income today target hy hm,
    currentMonthExpenses_eq expenses today target hy hm, ?_⟩
  unfold currentMonthBalance monthlyBalance
  rw [currentMonthIncome_eq income today target hy hm,
    currentMonthExpenses_eq expenses today target hy hm]

/-- Witness for C10 at a concrete collection and month. -/
theorem dashboard_overview_agreement_witness :
    currentMonthBalance [c8tx] [c8tx2] ⟨2025, 10, 11⟩ =
      monthlyBalance [c8tx] [c8tx2] ⟨2025, 10, 1⟩ :=
  (dashboard_overview_agreement [c8tx] [c8tx2] ⟨2025, 10, 11⟩ ⟨2025, 10, 1⟩
    rfl rfl).2.2.2.2

/-! ## C4: the projection simulator -/

/-- The spec's single month step: add the contribution, then apply the
monthly growth factor. -/
def specMonthStep (c rate v : ℚ) : ℚ := (v + c) * (1 + rate)

/-- The spec's unrounded value after `n` whole years: twelve month
steps per year, starting from the current net worth, with no rounding
between months or years. -/
def specYearValue (c rate v0 : ℚ) : ℕ → ℚ
  | 0 => v0
  | n + 1 => (specMonthStep c rate)^[12] (specYearValue c rate v0 n)

theorem projMonths_eq_iterate (c rate : ℚ) :
    ∀ (n : ℕ) (v : ℚ), projMonths c rate n v = (specMonthStep c rate)^[n] v := by
  intro n
  induction n with
  | zero => intro v; rfl
  | succ n ih =>
      intro v
      rw [projMonths, ih, Function.iterate_succ_apply]
      rfl

theorem specYearValue_eq_iterate (c rate v0 : ℚ) :
    ∀ n, specYearValue c rate v0 n = (specMonthStep c rate)^[12 * n] v0 := by
  intro n
  induction n with
  | zero => rfl
  | succ n ih =>
      rw [specYearValue, ih, ← Function.iterate_add_apply,
        show 12 + 12 * n = 12 * (n + 1) from by omega]

theorem projYears_eq (c rate : ℚ) (cy : ℕ) :
    ∀ (n k : ℕ) (v : ℚ),
      projYears c rate cy n k v =
        (List.range n).map (fun j =>
          (cy + (k + j), round2 ((specMonthStep c rate)^[12 * (j + 1)] v))) := by
  intro n
  induction n with
  | zero => intro k v; rfl
  | succ n ih =>
      intro k v
      rw [projYears, List.range_succ_eq_map, List.map_cons]
      refine congrArg₂ List.cons ?_ ?_
      · rw [projMonths_eq_iterate, Prod.mk.injEq]
        exact ⟨by omega, by norm_num⟩
      · rw [ih, List.map_map]
        apply List.map_congr_left
        intro j hj
        simp only [Function.comp_apply, Nat.succ_eq_add_one]
        rw [projMonths_eq_iterate, ← Function.iterate_add_apply, Prod.mk.injEq]
        constructor
        · omega
        · rw [show 12 * (j + 1) + 12 = 12 * (j + 1 + 1) from by omega]

/-- C4: for every current net worth, growth rate ≥ 0, contribution ≥ 0
and horizon of 1..50 whole years, the projection emits the "now" point
(the net worth rounded to 2 decimals) followed by one point per year;
the value of year k is the unrounded simulation value — 12 iterations
per year of (add contribution, then multiply by 1 + rate/100/12) —
rounded to 2 decimals only at emission. -/
theorem projectionData_spec (N r c : ℚ) (h cy : ℕ)
    (hr : 0 ≤ r) (hc : 0 ≤ c) (h1 : 1 ≤ h) (h50 : h ≤ 50) :
    (projectionData N r c h cy).length = h + 1 ∧
    projectionData N r c h cy =
      (cy, round2 N) ::
        (List.range h).map (fun k =>
          (cy + (k + 1), round2 (specYearValue c (r / 100 / 12) N (k + 1)))) := by
  have heq : projectionData N r c h cy =
      (cy, round2 N) ::
        (List.range h).map (fun k =>
          (cy + (k + 1), round2 (specYearValue c (r / 100 / 12) N (k + 1)))) := by
    unfold projectionData
    rw [projYears_eq]
    congr 1
    apply List.map_congr_left
    intro j hj
    rw [specYearValue_eq_iterate, Prod.mk.injEq]
    exact ⟨by omega, by rw [show j + 1 = 1 + j from by omega]⟩
  exact ⟨by rw [heq]; simp, heq⟩

/-- Witness for C4: the spec's own example — net worth 1000, growth
rate 0, contribution 100, horizon 1 year — gives the series
[1000, 2200] (the end-of-year value 1000 + 12·100 = 2200.00). -/
theorem projectionData_spec_witness :
    (projectionData 1000 0 100 1 2025).length = 1 + 1 ∧
    (projectionData 1000 0 100 1 2025).map Prod.snd = [1000, 2200] := by
  refine ⟨(projectionData_spec 1000 0 100 1 2025 (by norm_num) (by norm_num)
    (by norm_num) (by norm_num)).1, ?_⟩
  norm_num [projectionData, projYears, projMonths, round2]

/-! ## C7: asset lifecycle and the currentValue invariant -/

theorem latestFold_mem :
    ∀ (h : List VHEntry) (acc : Option VHEntry) (b : VHEntry),
      h.foldl latestStep acc = some b → acc = some b ∨ b ∈ h := by
  intro h
  induction h with
  | nil => intro acc b hb; exact Or.inl hb
  | cons e rest ih =>
      intro acc b hb
      rw [List.foldl_cons] at hb
      rcases ih _ _ hb with h1 | h1
      · cases acc with
        | none =>
            have h2 : some e = some b := h1
            injection h2 with h3
            exact Or.inr (by rw [← h3]; exact List.mem_cons_self _ _)
        | some a =>
            have h2 : (if a.date ≤ e.date then some e else some a) = some b := h1
            by_cases hd : a.date ≤ e.date
            · rw [if_pos hd] at h2
              injection h2 with h3
              exact Or.inr (by rw [← h3]; exact List.mem_cons_self _ _)
            · rw [if_neg hd] at h2
              exact Or.inl h2
      · exact Or.inr (List.mem_cons_of_mem _ h1)

/-- Appending an entry whose date is on or after every existing entry's
date makes it the latest entry. -/
theorem latestEntry_append_last (h : List VHEntry) (e : VHEntry)
    (hle : ∀ b ∈ h, b.date ≤ e.date) : latestEntry (h ++ [e]) = some e := by
  unfold latestEntry
  rw [List.foldl_append, List.foldl_cons, List.foldl_nil]
  cases hfold : h.foldl latestStep none with
  | none => rfl
  | some b =>
      rcases latestFold_mem h none b hfold with h1 | h1
      · exact Option.noConfusion h1
      · show (if b.date ≤ e.date then some e else some b) = some e
        rw [if_pos (hle b h1)]

/-- C7 (amended): asset creation seeds one history entry whose value is
the `currentValue`; every value update and every contribution appends
exactly one new history entry, leaves all prior entries unchanged, and
sets `currentValue` to the appended entry's value; and *provided the
new entry's date is on or after every existing entry's date*,
`currentValue` equals the chronologically latest entry's value.  (With
a back-dated contribution or an update of an asset whose history holds
a future-dated entry, the last equality fails — see the
counterexample.) -/
theorem asset_lifecycle_invariant :
    (∀ (id name ty : String) (v : ℚ) (d : Date),
      (addAssetRecord id name ty v d).valueHistory = [⟨v, d, none⟩] ∧
      (addAssetRecord id name ty v d).currentValue = v ∧
      (latestEntry (addAssetRecord id name ty v d).valueHistory).map VHEntry.value
        = some ((addAssetRecord id name ty v d).currentValue)) ∧
    (∀ (a : Asset) (nv : ℚ) (today : Date),
      (updateAssetValue a nv today).valueHistory
        = a.valueHistory ++ [⟨nv, today, none⟩] ∧
      (updateAssetValue a nv today).currentValue = nv ∧
      ((∀ b ∈ a.valueHistory, b.date ≤ today) →
        (latestEntry (updateAssetValue a nv today).valueHistory).map VHEntry.value
          = some ((updateAssetValue a nv today).currentValue))) ∧
    (∀ (a : Asset) (amt : ℚ) (cd : Date),
      (addContribution a amt cd).valueHistory
        = a.valueHistory ++ [⟨a.currentValue + amt, cd, some "contribution"⟩] ∧
      (addContribution a amt cd).currentValue = a.currentValue + amt ∧
      ((∀ b ∈ a.valueHistory, b.date ≤ cd) →
        (latestEntry (addContribution a amt cd).valueHistory).map VHEntry.value
          = some ((addContribution a amt cd).currentValue))) := by
  refine ⟨fun id name ty v d => ⟨rfl, rfl, rfl⟩,
    fun a nv today => ⟨rfl, rfl, fun hle => ?_⟩,
    fun a amt cd => ⟨rfl, rfl, fun hle => ?_⟩⟩
  · show (latestEntry (a.valueHistory ++ [⟨nv, today, none⟩])).map VHEntry.value = _
    rw [latestEntry_append_last _ _ hle]
    rfl
  · show (latestEntry (a.valueHistory ++
      [⟨a.currentValue + amt, cd, some "contribution"⟩])).map VHEntry.value = _
    rw [latestEntry_append_last _ _ hle]
    rfl

/-- An asset created with a future-dated seed valuation. -/
def c7asset : Asset := addAssetRecord "a1" "Future" "Cash" 100 ⟨2030, 1, 1⟩

/-- The same asset after `updateAssetValue` runs on 2025-06-01 (the
source stamps the update with today's date). -/
def c7updated : Asset := updateAssetValue c7asset 50 ⟨2025, 6, 1⟩

/-- C7 counterexample: after a value update of an asset holding a
future-dated history entry, `currentValue` (50) no longer equals the
chronologically latest entry's value (100). -/
theorem c7_update_breaks_latest_invariant :
    (latestEntry c7updated.valueHistory).map VHEntry.value = some 100 ∧
    c7updated.currentValue = 50 ∧ ((100 : ℚ) ≠ 50) := by
  refine ⟨?_, rfl, by norm_num⟩
  norm_num [c7updated, c7asset, addAssetRecord, updateAssetValue, latestEntry,
    latestStep, Date.le_def]

/-- Witness for the amended C7 theorem: a forward-dated update keeps
the invariant at a concrete asset. -/
theorem asset_lifecycle_invariant_witness :
    (latestEntry (updateAssetValue (addAssetRecord "a2" "N" "Cash" 100 ⟨2024, 1, 1⟩)
        50 ⟨2024, 2, 1⟩).valueHistory).map VHEntry.value
      = some ((updateAssetValue (addAssetRecord "a2" "N" "Cash" 100 ⟨2024, 1, 1⟩)
        50 ⟨2024, 2, 1⟩).currentValue) :=
  (asset_lifecycle_invariant.2.1 (addAssetRecord "a2" "N" "Cash" 100 ⟨2024, 1, 1⟩)
    50 ⟨2024, 2, 1⟩).2.2 (by decide)

/-! ## C5: missing / non-numeric amounts in the monthly aggregation -/

theorem foldl_jsAdd_none {α : Type} (f : α → JsNum) (l : List α) :
    l.foldl (fun s x => jsAdd s (f x)) none = none := by
  induction l with
  | nil => rfl
  | cons a rest ih =>
      rw [List.foldl_cons, show jsAdd none (f a) = none from by cases f a <;> rfl]
      exact ih

theorem foldl_jsAdd_eq_none_iff {α : Type} (f : α → JsNum) (l : List α) :
    ∀ q : ℚ, (l.foldl (fun s x => jsAdd s (f x)) (some q) = none ↔
      ∃ x ∈ l, f x = none) := by
  induction l with
  | nil => intro q; simp [List.foldl_nil]
  | cons a rest ih =>
      intro q
      rw [List.foldl_cons]
      cases hf : f a with
      | none =>
          rw [show jsAdd (some q) none = none from rfl]
          simp only [foldl_jsAdd_none, List.mem_cons]
          constructor
          · intro _
            exact ⟨a, Or.inl rfl, hf⟩
          · intro _
            trivial
      | some x =>
          rw [show jsAdd (some q) (some x) = some (q + x) from rfl, ih]
          constructor
          · rintro ⟨y, hy, hyn⟩
            exact ⟨y, List.mem_cons_of_mem _ hy, hyn⟩
          · rintro ⟨y, hy, hyn⟩
            rcases List.mem_cons.mp hy with h | h
            · rw [h] at hyn
              rw [hyn] at hf
              exact Option.noConfusion hf
            · exact ⟨y, h, hyn⟩

theorem foldl_jsAdd_all_some {α : Type} (f : α → JsNum) (l : List α)
    (h : ∀ x ∈ l, (f x).isSome) :
    ∀ q : ℚ, l.foldl (fun s x => jsAdd s (f x)) (some q)
      = some (q + (l.map (fun x => (f x).getD 0)).sum) := by
  induction l with
  | nil => intro q; simp [List.foldl_nil]
  | cons a rest ih =>
      intro q
      obtain ⟨x, hx⟩ := Option.isSome_iff_exists.mp (h a (List.mem_cons_self _ _))
      rw [List.foldl_cons, show jsAdd (some q) (f a) = some (q + x) from by rw [hx]; rfl,
        ih (fun y hy => h y (List.mem_cons_of_mem _ hy)), List.map_cons, List.sum_cons, hx]
      simp only [Option.getD_some]
      rw [add_assoc]

/-- C5 (amended): the monthly aggregation is a total function (nothing
throws), but a record with a missing or non-numeric amount active in
the month is NOT excluded from the sums: the total is NaN exactly when
some filtered record's amount is NaN/missing, and only when every
filtered record's amount is numeric is the total the exact sum of the
filtered amounts. -/
theorem totalMonthly_nan_propagation (income expenses : List Tx) (d : Date) :
    (totalMonthlyIncome income d = none ↔
      ∃ t ∈ filteredIncome income d, t.amount = none) ∧
    ((∀ t ∈ filteredIncome income d, t.amount.isSome) →
      totalMonthlyIncome income d
        = some (((filteredIncome income d).map (fun t => t.amount.getD 0)).sum)) ∧
    (totalMonthlyExpenses expenses d = none ↔
      ∃ t ∈ filteredExpenses expenses d, t.amount = none) ∧
    ((∀ t ∈ filteredExpenses expenses d, t.amount.isSome) →
      totalMonthlyExpenses expenses d
        = some (((filteredExpenses expenses d).map (fun t => t.amount.getD 0)).sum)) := by
  refine ⟨?_, ?_, ?_, ?_⟩
  · exact foldl_jsAdd_eq_none_iff Tx.amount (filteredIncome income d) 0
  · intro h
    rw [totalMonthlyIncome, foldl_jsAdd_all_some Tx.amount _ h, zero_add]
  · exact foldl_jsAdd_eq_none_iff Tx.amount (filteredExpenses expenses d) 0
  · intro h
    rw [totalMonthlyExpenses, foldl_jsAdd_all_some Tx.amount _ h, zero_add]

/-- A well-formed one-off March-2024 income of 5. -/
def c5tx1 : Tx := ⟨"i1", some 5, "", "", "One-Off", ⟨2024, 3, 10⟩, false, "", none⟩

/-- A one-off March-2024 income whose amount field is missing. -/
def c5tx2 : Tx := ⟨"i2", none, "", "", "One-Off", ⟨2024, 3, 12⟩, false, "", none⟩

/-- C5 counterexample: with one numeric (5) and one missing amount in
the selected month, the total is NaN — the malformed record is not
excluded (the claim predicts a total of 5). -/
theorem c5_missing_amount_poisons_total :
    c5tx2.amount = none ∧
    totalMonthlyIncome [c5tx1, c5tx2] ⟨2024, 3, 1⟩ = none ∧
    totalMonthlyIncome [c5tx1, c5tx2] ⟨2024, 3, 1⟩ ≠ some 5 := by
  have h : totalMonthlyIncome [c5tx1, c5tx2] ⟨2024, 3, 1⟩ = none := by
    simp [totalMonthlyIncome, filteredIncome, monthFilter, c5tx1, c5tx2,
      List.mergeSort, List.merge, dateLeb, jsAdd, Date.le_def]
  exact ⟨rfl, h, by simp [h]⟩

/-- Witness for the amended C5 theorem: with only numeric amounts the
total is the exact sum. -/
theorem totalMonthly_nan_propagation_witness :
    totalMonthlyIncome [c5tx1] ⟨2024, 3, 1⟩
      = some (((filteredIncome [c5tx1] ⟨2024, 3, 1⟩).map
          (fun t => t.amount.getD 0)).sum) :=
  (totalMonthly_nan_propagation [c5tx1] [] ⟨2024, 3, 1⟩).2.1
    (by simp [filteredIncome, monthFilter, c5tx1, List.mergeSort, List.merge])

/-! ## C6: breakdown sums equal the filtered list's sum -/

/-- The sum of the amounts of a breakdown, in JS arithmetic. -/
def sumVals (l : List (String × JsNum)) : JsNum :=
  l.foldl (fun s p => jsAdd s p.2) (some 0)

/-- The rational sum of a breakdown's (numeric) amounts. -/
def qSumVals (m : List (String × JsNum)) : ℚ :=
  (m.map (fun p => p.2.getD 0)).sum

theorem qSumVals_nil : qSumVals [] = 0 := rfl

theorem qSumVals_cons (p : String × JsNum) (l : List (String × JsNum)) :
    qSumVals (p :: l) = p.2.getD 0 + qSumVals l := by
  simp [qSumVals]

theorem mem_mapSet {κ ν : Type} [DecidableEq κ] (m : List (κ × ν)) (k : κ) (v : ν)
    (p : κ × ν) (hp : p ∈ mapSet m k v) : p = (k, v) ∨ p ∈ m := by
  induction m with
  | nil =>
      simp only [mapSet, List.mem_singleton] at hp
      exact Or.inl hp
  | cons q rest ih =>
      obtain ⟨k', v'⟩ := q
      simp only [mapSet] at hp
      by_cases hk : k' = k
      · rw [if_pos hk] at hp
        rcases List.mem_cons.mp hp with h | h
        · exact Or.inl h
        · exact Or.inr (List.mem_cons_of_mem _ h)
      · rw [if_neg hk] at hp
        rcases List.mem_cons.mp hp with h | h
        · exact Or.inr (by rw [h]; exact List.mem_cons_self _ _)
        · rcases ih h with h2 | h2
          · exact Or.inl h2
          · exact Or.inr (List.mem_cons_of_mem _ h2)

theorem mapGet_mem {κ ν : Type} [DecidableEq κ] (m : List (κ × ν)) (k : κ) (w : ν)
    (h : mapGet m k = some w) : (k, w) ∈ m := by
  induction m with
  | nil => exact Option.noConfusion h
  | cons q rest ih =>
      obtain ⟨k', v'⟩ := q
      simp only [mapGet] at h
      by_cases hk : k' = k
      · rw [if_pos hk] at h
        injection h with h2
        rw [← hk, ← h2]
        exact List.mem_cons_self _ _
      · rw [if_neg hk] at h
        exact List.mem_cons_of_mem _ (ih h)

theorem qSumVals_set_of_get_none (m : List (String × JsNum)) (k : String) (v : JsNum)
    (h : mapGet m k = none) : qSumVals (mapSet m k v) = qSumVals m + v.getD 0 := by
  induction m with
  | nil => simp [mapSet, qSumVals]
  | cons p rest ih =>
      obtain ⟨k', v'⟩ := p
      simp only [mapGet] at h
      by_cases hk : k' = k
      · rw [if_pos hk] at h
        exact Option.noConfusion h
      · rw [if_neg hk] at h
        simp only [mapSet, if_neg hk]
        rw [qSumVals_cons, qSumVals_cons, ih h]
        ring

theorem qSumVals_set_of_get_some (m : List (String × JsNum)) (k : String)
    (v w : JsNum) (h : mapGet m k = some w) :
    qSumVals (mapSet m k v) = qSumVals m - w.getD 0 + v.getD 0 := by
  induction m with
  | nil => exact Option.noConfusion h
  | cons p rest ih =>
      obtain ⟨k', v'⟩ := p
      simp only [mapGet] at h
      by_cases hk : k' = k
      · rw [if_pos hk] at h
        injection h with h2
        simp only [mapSet, if_pos hk]
        rw [qSumVals_cons, qSumVals_cons, h2]
        ring
      · rw [if_neg hk] at h
        simp only [mapSet, if_neg hk]
        rw [qSumVals_cons, qSumVals_cons, ih h]
        ring

/-- The accumulation step of `summaryFold`, named for the lemmas. -/
def summaryStep (key : Tx → String) (s : List (String × JsNum)) (e : Tx) :
    List (String × JsNum) :=
  mapSet s (key e) (jsAdd (jsOrZero (mapGet s (key e))) e.amount)

theorem summaryFold_eq_foldl (key : Tx → String) (l : List Tx) :
    summaryFold key l = l.foldl (summaryStep key) [] := rfl

/-- Invariant of the summary accumulation: starting from a map whose
values are all numeric and consuming only numeric amounts, the values
stay numeric and the rational total grows by exactly each consumed
amount (no record double-counted or dropped). -/
theorem summaryFold_from (key : Tx → String) :
    ∀ (l : List Tx) (m : List (String × JsNum)),
      (∀ p ∈ m, p.2.isSome) → (∀ t ∈ l, t.amount.isSome) →
      (∀ p ∈ l.foldl (summaryStep key) m, p.2.isSome) ∧
      qSumVals (l.foldl (summaryStep key) m)
        = qSumVals m + (l.map (fun t => t.amount.getD 0)).sum := by
  intro l
  induction l with
  | nil =>
      intro m hm _
      exact ⟨hm, by simp⟩
  | cons t rest ih =>
      intro m hm hl
      obtain ⟨x, hx⟩ := Option.isSome_iff_exists.mp (hl t (List.mem_cons_self _ _))
      rw [List.foldl_cons]
      have hm'some : ∀ p ∈ summaryStep key m t, p.2.isSome := by
        intro p hp
        rcases mem_mapSet _ _ _ _ hp with h | h
        · rw [h]
          cases hg : mapGet m (key t) with
          | none => simp [jsOrZero, hx, jsAdd]
          | some w =>
              obtain ⟨q, hq⟩ := Option.isSome_iff_exists.mp (hm _ (mapGet_mem _ _ _ hg))
              have hq' : w = some q := hq
              simp [jsOrZero, hq', hx, jsAdd]
        · exact hm p h
      have hsum' : qSumVals (summaryStep key m t) = qSumVals m + x := by
        unfold summaryStep
        cases hg : mapGet m (key t) with
        | none =>
            rw [qSumVals_set_of_get_none _ _ _ hg]
            simp [jsOrZero, hx, jsAdd]
        | some w =>
            obtain ⟨q, hq⟩ := Option.isSome_iff_exists.mp (hm _ (mapGet_mem _ _ _ hg))
            have hq' : w = some q := hq
            rw [qSumVals_set_of_get_some _ _ _ w hg, hq']
            simp [jsOrZero, hx, jsAdd]
            ring
      obtain ⟨ih1, ih2⟩ := ih (summaryStep key m t) hm'some
        (fun y hy => hl y (List.mem_cons_of_mem _ hy))
      refine ⟨ih1, ?_⟩
      rw [ih2, hsum', List.map_cons, List.sum_cons, hx]
      simp only [Option.getD_some]
      ring

theorem sumVals_of_allSome (m : List (String × JsNum))
    (h : ∀ p ∈ m, p.2.isSome) : sumVals m = some (qSumVals m) := by
  unfold sumVals qSumVals
  rw [foldl_jsAdd_all_some Prod.snd m h 0, zero_add]

/-- The keys of a summary all come from the summarised list. -/
theorem summaryFold_key_mem (key : Tx → String) :
    ∀ (l : List Tx) (m : List (String × JsNum)) (p : String × JsNum),
      p ∈ l.foldl (summaryStep key) m → p ∈ m ∨ ∃ t ∈ l, key t = p.1 := by
  intro l
  induction l with
  | nil => intro m p hp; exact Or.inl hp
  | cons t rest ih =>
      intro m p hp
      rw [List.foldl_cons] at hp
      rcases ih _ _ hp with h | h
      · rcases mem_mapSet _ _ _ _ h with h2 | h2
        · exact Or.inr ⟨t, List.mem_cons_self _ _, by rw [h2]⟩
        · exact Or.inl h2
      · obtain ⟨u, hu, hu2⟩ := h
        exact Or.inr ⟨u, List.mem_cons_of_mem _ hu, hu2⟩

/-- C6: for numeric amounts, the category breakdown's total and the
type breakdown's total both equal the filtered expense list's total
exactly (no double counting, no omissions); every type-breakdown key is
the stored `type` of some filtered expense; and the stored `type` is
derived from `isRecurring` at creation ("Recurring"/"One-Off"). -/
theorem expenseSummaries_preserve_sums (expenses : List Tx) (d : Date)
    (hall : ∀ t ∈ expenses, t.amount.isSome) :
    sumVals (expenseSummaryByCategory expenses d) = totalMonthlyExpenses expenses d ∧
    sumVals (expenseSummaryByType expenses d) = totalMonthlyExpenses expenses d ∧
    (∀ p ∈ expenseSummaryByType expenses d,
      ∃ t ∈ filteredExpenses expenses d, t.type = p.1) ∧
    (∀ (id : String) (amount : JsNum) (descr cat : String) (date : Date)
        (isRec : Bool) (freq : String) (ed : Option Date),
      (mkNewExpense id amount descr cat date isRec freq ed).type
        = if isRec then "Recurring" else "One-Off") := by
  have hallf : ∀ t ∈ filteredExpenses expenses d, t.amount.isSome := by
    intro t ht
    have h1 : t ∈ expenses.filter (fun t => monthFilter t d) :=
      (List.mergeSort_perm _ _).mem_iff.mp ht
    exact hall t (List.mem_filter.mp h1).1
  have hsum : ∀ key : Tx → String,
      sumVals (sortByAmountDesc (summaryFold key (filteredExpenses expenses d)))
        = totalMonthlyExpenses expenses d := by
    intro key
    have h1 := summaryFold_from key (filteredExpenses expenses d) []
      (by intro p hp; cases hp) hallf
    have h2 : sumVals (sortByAmountDesc (summaryFold key (filteredExpenses expenses d)))
        = sumVals (summaryFold key (filteredExpenses expenses d)) :=
      foldl_jsAdd_perm Prod.snd (List.mergeSort_perm _ _) _
    rw [h2, summaryFold_eq_foldl, sumVals_of_allSome _ h1.1, h1.2, qSumVals_nil,
      zero_add, totalMonthlyExpenses, foldl_jsAdd_all_some Tx.amount _ hallf 0,
      zero_add]
  refine ⟨hsum (fun e => e.category), hsum (fun e => e.type), ?_, ?_⟩
  · intro p hp
    have hp' : p ∈ summaryFold (fun e => e.type) (filteredExpenses expenses d) :=
      (List.mergeSort_perm _ _).mem_iff.mp hp
    rcases summaryFold_key_mem (fun e => e.type) (filteredExpenses expenses d) [] p
      (by rw [← summaryFold_eq_foldl]; exact hp') with h | h
    · cases h
    · obtain ⟨t, ht, h2⟩ := h
      exact ⟨t, ht, h2⟩
  · intro id amount descr cat date isRec freq ed
    cases isRec <;> rfl

/-- Witness for C6 at a concrete single-expense collection. -/
theorem expenseSummaries_preserve_sums_witness :
    sumVals (expenseSummaryByCategory [c5tx1] ⟨2024, 3, 1⟩)
      = totalMonthlyExpenses [c5tx1] ⟨2024, 3, 1⟩ :=
  (expenseSummaries_preserve_sums [c5tx1] ⟨2024, 3, 1⟩
    (by intro t ht; rw [List.mem_singleton.mp ht]; rfl)).1

/-! ## C1/C2: characterising the Value History Merger -/

/-- Left-biased choice of optional values (`x !== undefined ? x : y`). -/
def oor (a b : Option ℚ) : Option ℚ :=
  match a with
  | some x => some x
  | none => b

theorem oor_none_right (a : Option ℚ) : oor a none = a := by
  cases a <;> rfl

/-- `dailyValuesMap.get(date)?.get(assetId)`. -/
def mapGet₂ (m : DayMap) (d : Date) (i : String) : Option ℚ :=
  (mapGet m d).bind (fun inner => mapGet inner i)

theorem mapGet₂_nil (d : Date) (i : String) : mapGet₂ [] d i = none := rfl

theorem insEntries_get_self (i : String) :
    ∀ (E : List VHEntry) (m : DayMap) (d : Date),
      mapGet₂ (insEntries i m E) d i
        = oor ((E.filter (fun e => decide (e.date = d))).getLast?.map VHEntry.value)
            (mapGet₂ m d i) := by
  intro E
  induction E with
  | nil => intro m d; simp [insEntries, oor]
  | cons e E' ih =>
      intro m d
      rw [insEntries, ih]
      by_cases hd : e.date = d
      · have hget : mapGet₂ (mapSet m e.date (mapSet ((mapGet m e.date).getD []) i e.value)) d i
            = some e.value := by
          unfold mapGet₂
          rw [← hd, mapGet_set_self]
          simp [mapGet_set_self]
        rw [hget]
        rw [List.filter_cons, if_pos (by simp [hd])]
        cases hfe : E'.filter (fun e => decide (e.date = d)) with
        | nil => simp [oor]
        | cons f fs =>
            rw [List.getLast?_cons_cons]
            cases hlast : (f :: fs).getLast? with
            | none =>
                have h2 : (f :: fs).getLast?.isSome := List.getLast?_isSome.mpr (by simp)
                rw [hlast] at h2
                exact absurd h2 (by simp)
            | some g => simp [oor]
      · have hget : mapGet₂ (mapSet m e.date (mapSet ((mapGet m e.date).getD []) i e.value)) d i
            = mapGet₂ m d i := by
          unfold mapGet₂
          rw [mapGet_set_other _ _ _ _ (fun hh => hd hh.symm)]
        rw [hget, List.filter_cons, if_neg (by simp [hd])]

theorem insEntries_get_other (i j : String) (hne : j ≠ i) :
    ∀ (E : List VHEntry) (m : DayMap) (d : Date),
      mapGet₂ (insEntries i m E) d j = mapGet₂ m d j := by
  intro E
  induction E with
  | nil => intro m d; rfl
  | cons e E' ih =>
      intro m d
      rw [insEntries, ih]
      by_cases hd : e.date = d
      · unfold mapGet₂
        rw [← hd, mapGet_set_self, Option.some_bind,
          mapGet_set_other _ _ _ _ hne]
        cases hg : mapGet m e.date with
        | none => rfl
        | some o => rfl
      · unfold mapGet₂
        rw [mapGet_set_other _ _ _ _ (fun hh => hd hh.symm)]

theorem foldl_insertAsset_other (j : String) :
    ∀ (l : List Asset) (m : DayMap), (∀ b ∈ l, b.id ≠ j) →
      ∀ d, mapGet₂ (l.foldl insertAssetEntries m) d j = mapGet₂ m d j := by
  intro l
  induction l with
  | nil => intro m _ d; rfl
  | cons b rest ih =>
      intro m hb d
      rw [List.foldl_cons, ih _ (fun c hc => hb c (List.mem_cons_of_mem _ hc)),
        insertAssetEntries, insEntries_get_other _ _ ?hne]
      case hne => exact fun hh => hb b (List.mem_cons_self _ _) (hh ▸ rfl)

/-- The value the first pass records for asset `a` on date `d` is
exactly the last entry of `a`'s sorted history dated `d` (asset ids
pairwise distinct). -/
theorem dailyValuesMap_get (assets : List Asset)
    (hnd : (assets.map Asset.id).Nodup) (a : Asset) (ha : a ∈ assets) (d : Date) :
    mapGet₂ (dailyValuesMap assets) d a.id = lastValAt a d := by
  obtain ⟨l₁, l₂, rfl⟩ := List.append_of_mem ha
  have h1 : (l₁.map Asset.id ++ a.id :: l₂.map Asset.id).Nodup := by
    simpa using hnd
  rw [List.nodup_append] at h1
  obtain ⟨hn1, hn2, hdisj⟩ := h1
  have hl2 : ∀ b ∈ l₂, b.id ≠ a.id := by
    intro b hb heq
    rw [List.nodup_cons] at hn2
    exact hn2.1 (heq ▸ List.mem_map_of_mem Asset.id hb)
  have hl1 : ∀ b ∈ l₁, b.id ≠ a.id := by
    intro b hb heq
    exact hdisj (List.mem_map_of_mem Asset.id hb) (heq ▸ List.mem_cons_self _ _)
  rw [dailyValuesMap, List.foldl_append, List.foldl_cons,
    foldl_insertAsset_other a.id l₂ _ hl2]
  rw [insertAssetEntries, insEntries_get_self,
    foldl_insertAsset_other a.id l₁ _ hl1, mapGet₂_nil, oor_none_right]
  rfl

theorem mem_keys_insEntries (i : String) :
    ∀ (E : List VHEntry) (m : DayMap) (d : Date),
      d ∈ mapKeys (insEntries i m E) ↔ d ∈ mapKeys m ∨ ∃ e ∈ E, e.date = d := by
  intro E
  induction E with
  | nil => intro m d; simp [insEntries]
  | cons e E' ih =>
      intro m d
      rw [insEntries, ih, mem_mapKeys_set]
      constructor
      · rintro ((h | h) | h)
        · exact Or.inr ⟨e, List.mem_cons_self _ _, h.symm⟩
        · exact Or.inl h
        · obtain ⟨f, hf, hf2⟩ := h
          exact Or.inr ⟨f, List.mem_cons_of_mem _ hf, hf2⟩
      · rintro (h | ⟨f, hf, hf2⟩)
        · exact Or.inl (Or.inr h)
        · rcases List.mem_cons.mp hf with h2 | h2
          · exact Or.inl (Or.inl (by rw [h2] at hf2; exact hf2.symm))
          · exact Or.inr ⟨f, h2, hf2⟩

theorem keys_insEntries_nodup (i : String) :
    ∀ (E : List VHEntry) (m : DayMap), (mapKeys m).Nodup →
      (mapKeys (insEntries i m E)).Nodup := by
  intro E
  induction E with
  | nil => intro m hm; exact hm
  | cons e E' ih =>
      intro m hm
      exact ih _ (mapKeys_set_nodup _ _ _ hm)

theorem keys_foldl_insertAsset_nodup :
    ∀ (l : List Asset) (m : DayMap), (mapKeys m).Nodup →
      (mapKeys (l.foldl insertAssetEntries m)).Nodup := by
  intro l
  induction l with
  | nil => intro m hm; exact hm
  | cons b rest ih =>
      intro m hm
      exact ih _ (keys_insEntries_nodup _ _ _ hm)

theorem keys_dailyValuesMap_nodup (assets : List Asset) :
    (mapKeys (dailyValuesMap assets)).Nodup :=
  keys_foldl_insertAsset_nodup assets [] List.nodup_nil

/-- Every history entry of some asset is in an asset's `valueHistory`
iff its date is a key of the first-pass map (coverage). -/
theorem mem_keys_foldl_insertAsset :
    ∀ (l : List Asset) (m : DayMap) (d : Date),
      d ∈ mapKeys (l.foldl insertAssetEntries m) ↔
        d ∈ mapKeys m ∨ ∃ a ∈ l, ∃ e ∈ a.valueHistory, e.date = d := by
  intro l
  induction l with
  | nil => intro m d; simp
  | cons b rest ih =>
      intro m d
      rw [List.foldl_cons, ih, insertAssetEntries, mem_keys_insEntries]
      have hsh : ∀ e : VHEntry, e ∈ sortHistory b.valueHistory ↔ e ∈ b.valueHistory :=
        fun e => (List.mergeSort_perm _ _).mem_iff
      constructor
      · rintro ((h | ⟨e, he, he2⟩) | ⟨a, ha, he⟩)
        · exact Or.inl h
        · exact Or.inr ⟨b, List.mem_cons_self _ _, e, (hsh e).mp he, he2⟩
        · exact Or.inr ⟨a, List.mem_cons_of_mem _ ha, he⟩
      · rintro (h | ⟨a, ha, e, he, he2⟩)
        · exact Or.inl (Or.inl h)
        · rcases List.mem_cons.mp ha with h2 | h2
          · exact Or.inl (Or.inr ⟨e, (hsh e).mpr (h2 ▸ he), he2⟩)
          · exact Or.inr ⟨a, h2, e, he, he2⟩

theorem mem_keys_dailyValuesMap (assets : List Asset) (d : Date) :
    d ∈ mapKeys (dailyValuesMap assets) ↔
      ∃ a ∈ assets, ∃ e ∈ a.valueHistory, e.date = d := by
  rw [dailyValuesMap, mem_keys_foldl_insertAsset]
  simp [mapKeys]

theorem mem_uniqueDates (assets : List Asset) (d : Date) :
    d ∈ uniqueDates assets ↔ ∃ a ∈ assets, ∃ e ∈ a.valueHistory, e.date = d :=
  ((List.mergeSort_perm _ _).mem_iff).trans (mem_keys_dailyValuesMap assets d)

theorem uniqueDates_sorted_lt (assets : List Asset) :
    List.Pairwise (· < ·) (uniqueDates assets) := by
  have htrans : ∀ a b c : Date, dateLeb a b = true → dateLeb b c = true →
      dateLeb a c = true := by
    intro a b c h1 h2
    simp only [dateLeb, decide_eq_true_eq] at h1 h2 ⊢
    exact le_trans h1 h2
  have htotal : ∀ a b : Date, (dateLeb a b || dateLeb b a) = true := by
    intro a b
    simp only [dateLeb, Bool.or_eq_true, decide_eq_true_eq]
    exact le_total a b
  have hs := List.sorted_mergeSort htrans htotal (mapKeys (dailyValuesMap assets))
  have hp : List.Pairwise (fun a b : Date => a ≤ b) (uniqueDates assets) :=
    hs.imp (fun h => by simpa [dateLeb] using h)
  have hnd : (uniqueDates assets).Nodup :=
    ((List.mergeSort_perm _ _).nodup_iff).mpr (keys_dailyValuesMap_nodup assets)
  exact List.Sorted.lt_of_le hp hnd

/-- One step of the per-date walk, for one asset. -/
def stepOne (dm : DayMap) (d : Date) (cur : InnerMap) (a : Asset) : InnerMap :=
  match mapGet₂ dm d a.id with
  | some v => mapSet cur a.id v
  | none => cur

theorem stepDate_eq_foldl (assets : List Asset) (dm : DayMap) (d : Date)
    (cur : InnerMap) : stepDate assets dm d cur = assets.foldl (stepOne dm d) cur := rfl

theorem stepFold_other (dm : DayMap) (d : Date) (j : String) :
    ∀ (l : List Asset) (cur : InnerMap), (∀ b ∈ l, b.id ≠ j) →
      mapGet (l.foldl (stepOne dm d) cur) j = mapGet cur j := by
  intro l
  induction l with
  | nil => intro cur _; rfl
  | cons b rest ih =>
      intro cur hb
      rw [List.foldl_cons, ih _ (fun c hc => hb c (List.mem_cons_of_mem _ hc))]
      unfold stepOne
      cases mapGet₂ dm d b.id with
      | some v => exact mapGet_set_other _ _ _ _ (Ne.symm (hb b (List.mem_cons_self _ _)))
      | none => rfl

/-- Splitting a duplicate-free id list around one asset. -/
theorem nodup_ids_split (l₁ l₂ : List Asset) (a : Asset)
    (hnd : ((l₁ ++ a :: l₂).map Asset.id).Nodup) :
    (∀ b ∈ l₁, b.id ≠ a.id) ∧ (∀ b ∈ l₂, b.id ≠ a.id) := by
  have h1 : (l₁.map Asset.id ++ a.id :: l₂.map Asset.id).Nodup := by
    simpa using hnd
  rw [List.nodup_append] at h1
  obtain ⟨_, hn2, hdisj⟩ := h1
  constructor
  · intro b hb heq
    exact hdisj (List.mem_map_of_mem Asset.id hb) (heq ▸ List.mem_cons_self _ _)
  · intro b hb heq
    rw [List.nodup_cons] at hn2
    exact hn2.1 (heq ▸ List.mem_map_of_mem Asset.id hb)

/-- Effect of one date's walk on the tracked value of one asset: an
explicit entry on this date overwrites, otherwise the old value is kept. -/
theorem stepDate_get (assets : List Asset) (hnd : (assets.map Asset.id).Nodup)
    (dm : DayMap) (d : Date) (cur : InnerMap) (a : Asset) (ha : a ∈ assets) :
    mapGet (stepDate assets dm d cur) a.id
      = oor (mapGet₂ dm d a.id) (mapGet cur a.id) := by
  obtain ⟨l₁, l₂, rfl⟩ := List.append_of_mem ha
  obtain ⟨hl1, hl2⟩ := nodup_ids_split l₁ l₂ a hnd
  rw [stepDate_eq_foldl, List.foldl_append, List.foldl_cons,
    stepFold_other dm d a.id l₂ _ hl2]
  cases hg : mapGet₂ dm d a.id with
  | some v =>
      rw [show stepOne dm d (l₁.foldl (stepOne dm d) cur) a
          = mapSet (l₁.foldl (stepOne dm d) cur) a.id v from by
        unfold stepOne; rw [hg]]
      rw [mapGet_set_self]
      rfl
  | none =>
      rw [show stepOne dm d (l₁.foldl (stepOne dm d) cur) a
          = l₁.foldl (stepOne dm d) cur from by
        unfold stepOne; rw [hg]]
      rw [stepFold_other dm d a.id l₁ _ hl1]
      rfl

theorem stepOne_keys (dm : DayMap) (d : Date) (cur : InnerMap) (b : Asset)
    (j : String) : j ∈ mapKeys (stepOne dm d cur b) → j = b.id ∨ j ∈ mapKeys cur := by
  unfold stepOne
  cases hg : mapGet₂ dm d b.id with
  | some v => exact fun h => (mem_mapKeys_set _ _ _ _).mp h
  | none => exact fun h => Or.inr h

theorem stepFold_keys (dm : DayMap) (d : Date) :
    ∀ (l : List Asset) (cur : InnerMap) (j : String),
      j ∈ mapKeys (l.foldl (stepOne dm d) cur) →
      j ∈ mapKeys cur ∨ ∃ b ∈ l, b.id = j := by
  intro l
  induction l with
  | nil => intro cur j h; exact Or.inl h
  | cons b rest ih =>
      intro cur j h
      rw [List.foldl_cons] at h
      rcases ih _ _ h with h2 | h2
      · rcases stepOne_keys dm d cur b j h2 with h3 | h3
        · exact Or.inr ⟨b, List.mem_cons_self _ _, h3.symm⟩
        · exact Or.inl h3
      · obtain ⟨c, hc, hc2⟩ := h2
        exact Or.inr ⟨c, List.mem_cons_of_mem _ hc, hc2⟩

theorem stepFold_keys_nodup (dm : DayMap) (d : Date) :
    ∀ (l : List Asset) (cur : InnerMap), (mapKeys cur).Nodup →
      (mapKeys (l.foldl (stepOne dm d) cur)).Nodup := by
  intro l
  induction l with
  | nil => intro cur h; exact h
  | cons b rest ih =>
      intro cur h
      rw [List.foldl_cons]
      apply ih
      unfold stepOne
      cases mapGet₂ dm d b.id with
      | some v => exact mapKeys_set_nodup _ _ _ h
      | none => exact h

theorem foldl_add_q (l : InnerMap) :
    ∀ q : ℚ, l.foldl (fun s p => s + p.2) q = q + (l.map Prod.snd).sum := by
  induction l with
  | nil => intro q; simp
  | cons p rest ih =>
      intro q
      rw [List.foldl_cons, ih, List.map_cons, List.sum_cons]
      ring

theorem mapSumQ_eq (m : InnerMap) : mapSumQ m = (m.map Prod.snd).sum := by
  rw [mapSumQ, foldl_add_q, zero_add]

/-- JS has no `Map.delete` in this code; `mapRemove` is a proof-side
device for summing a map against a duplicate-free key set. -/
def mapRemove {κ ν : Type} [DecidableEq κ] : List (κ × ν) → κ → List (κ × ν)
  | [], _ => []
  | (k', v') :: rest, k => if k' = k then rest else (k', v') :: mapRemove rest k

theorem mapRemove_sublist {κ ν : Type} [DecidableEq κ] (m : List (κ × ν)) (k : κ) :
    (mapRemove m k).Sublist m := by
  induction m with
  | nil => simp [mapRemove]
  | cons p rest ih =>
      obtain ⟨k', v'⟩ := p
      simp only [mapRemove]
      by_cases hk : k' = k
      · rw [if_pos hk]
        exact List.sublist_cons_self _ _
      · rw [if_neg hk]
        exact List.Sublist.cons₂ _ ih

theorem mapRemove_get_other {κ ν : Type} [DecidableEq κ] (m : List (κ × ν))
    (k j : κ) (h : j ≠ k) : mapGet (mapRemove m k) j = mapGet m j := by
  induction m with
  | nil => rfl
  | cons p rest ih =>
      obtain ⟨k', v'⟩ := p
      simp only [mapRemove]
      by_cases hk : k' = k
      · rw [if_pos hk]
        simp only [mapGet]
        rw [if_neg (by rw [hk]; exact fun hh => h hh.symm)]
      · rw [if_neg hk]
        simp only [mapGet, ih]

theorem sum_mapRemove (m : InnerMap) (k : String) (v : ℚ)
    (h : mapGet m k = some v) :
    (m.map Prod.snd).sum = v + ((mapRemove m k).map Prod.snd).sum := by
  induction m with
  | nil => exact Option.noConfusion h
  | cons p rest ih =>
      obtain ⟨k', v'⟩ := p
      simp only [mapGet] at h
      simp only [mapRemove]
      by_cases hk : k' = k
      · rw [if_pos hk] at h ⊢
        injection h with h2
        rw [List.map_cons, List.sum_cons, h2]
      · rw [if_neg hk] at h ⊢
        rw [List.map_cons, List.sum_cons, List.map_cons, List.sum_cons, ih h]
        ring

theorem not_mem_keys_mapRemove (m : InnerMap) (k : String)
    (hnd : (mapKeys m).Nodup) : k ∉ mapKeys (mapRemove m k) := by
  induction m with
  | nil => simp [mapRemove, mapKeys]
  | cons p rest ih =>
      obtain ⟨k', v'⟩ := p
      rw [mapKeys_cons, List.nodup_cons] at hnd
      simp only [mapRemove]
      by_cases hk : k' = k
      · rw [if_pos hk]
        rw [← hk]
        exact hnd.1
      · rw [if_neg hk]
        rw [mapKeys_cons, List.mem_cons]
        rintro (h | h)
        · exact hk h.symm
        · exact ih hnd.2 h

/-- Summing a map whose keys form a subset of a duplicate-free asset-id
list and whose lookups agree pointwise with `f` gives the sum of `f`
over the assets (absent assets contributing 0). -/
theorem mapSumQ_of_pointwise :
    ∀ (assets : List Asset) (m : InnerMap) (f : Asset → Option ℚ),
      (assets.map Asset.id).Nodup →
      (∀ k ∈ mapKeys m, ∃ a ∈ assets, a.id = k) →
      (mapKeys m).Nodup →
      (∀ a ∈ assets, mapGet m a.id = f a) →
      mapSumQ m = (assets.map (fun a => (f a).getD 0)).sum := by
  intro assets
  induction assets with
  | nil =>
      intro m f _ hk _ _
      cases m with
      | nil => rfl
      | cons p rest =>
          obtain ⟨a, ha, _⟩ := hk p.1 (List.mem_map_of_mem Prod.fst (List.mem_cons_self _ _))
          cases ha
  | cons a rest ih =>
      intro m f hnd hk hknd hv
      rw [List.map_cons, List.nodup_cons] at hnd
      have hva := hv a (List.mem_cons_self _ _)
      have hrestne : ∀ b ∈ rest, b.id ≠ a.id := by
        intro b hb heq
        exact hnd.1 (heq ▸ List.mem_map_of_mem Asset.id hb)
      cases hfa : f a with
      | some v =>
          rw [hfa] at hva
          have hrec : mapSumQ (mapRemove m a.id)
              = (rest.map (fun b => (f b).getD 0)).sum := by
            apply ih (mapRemove m a.id) f hnd.2
            · intro k hk2
              have hk3 : k ∈ mapKeys m := by
                have hsub := (mapRemove_sublist m a.id).map Prod.fst
                exact hsub.mem hk2
              obtain ⟨b, hb, hb2⟩ := hk k hk3
              rcases List.mem_cons.mp hb with h2 | h2
              · exfalso
                rw [h2] at hb2
                rw [← hb2] at hk2
                exact not_mem_keys_mapRemove m a.id hknd hk2
              · exact ⟨b, h2, hb2⟩
            · exact ((mapRemove_sublist m a.id).map Prod.fst).nodup hknd
            · intro b hb
              rw [mapRemove_get_other m a.id b.id (hrestne b hb)]
              exact hv b (List.mem_cons_of_mem _ hb)
          rw [mapSumQ_eq, sum_mapRemove m a.id v hva, List.map_cons, List.sum_cons,
            hfa, ← mapSumQ_eq, hrec]
          simp
      | none =>
          rw [hfa] at hva
          have hnmem : a.id ∉ mapKeys m := (mapGet_eq_none_iff m a.id).mp hva
          rw [List.map_cons, List.sum_cons, hfa]
          have hrec : mapSumQ m = (rest.map (fun b => (f b).getD 0)).sum := by
            apply ih m f hnd.2
            · intro k hk2
              obtain ⟨b, hb, hb2⟩ := hk k hk2
              rcases List.mem_cons.mp hb with h2 | h2
              · exfalso
                rw [h2] at hb2
                rw [← hb2] at hk2
                exact hnmem hk2
              · exact ⟨b, h2, hb2⟩
            · exact hknd
            · intro b hb
              exact hv b (List.mem_cons_of_mem _ hb)
          rw [hrec]
          simp

theorem oor_eq_or (a b : Option ℚ) : oor a b = a.or b := by
  cases a <;> rfl

theorem sortHistory_sorted (h : List VHEntry) :
    List.Pairwise (fun e f : VHEntry => e.date ≤ f.date) (sortHistory h) := by
  have htrans : ∀ a b c : VHEntry, dateLeb a.date b.date = true →
      dateLeb b.date c.date = true → dateLeb a.date c.date = true := by
    intro a b c h1 h2
    simp only [dateLeb, decide_eq_true_eq] at h1 h2 ⊢
    exact le_trans h1 h2
  have htotal : ∀ a b : VHEntry, (dateLeb a.date b.date || dateLeb b.date a.date) = true := by
    intro a b
    simp only [dateLeb, Bool.or_eq_true, decide_eq_true_eq]
    exact le_total a.date b.date
  have hs := List.sorted_mergeSort htrans htotal h
  exact hs.imp (fun hab => by simpa [dateLeb] using hab)

theorem mem_sortHistory (h : List VHEntry) (e : VHEntry) :
    e ∈ sortHistory h ↔ e ∈ h :=
  (List.mergeSort_perm _ _).mem_iff

/-- On a date-sorted list, the entries on or before `d` split as the
entries strictly before `d` followed by the entries exactly on `d`. -/
theorem filter_le_split (d : Date) :
    ∀ l : List VHEntry, List.Pairwise (fun e f : VHEntry => e.date ≤ f.date) l →
      l.filter (fun e => decide (e.date ≤ d))
        = l.filter (fun e => decide (e.date < d))
          ++ l.filter (fun e => decide (e.date = d)) := by
  intro l
  induction l with
  | nil => intro _; rfl
  | cons e rest ih =>
      intro hp
      rw [List.pairwise_cons] at hp
      rcases lt_trichotomy e.date d with hlt | heq | hgt
      · rw [List.filter_cons, List.filter_cons, List.filter_cons,
          if_pos (by simp [le_of_lt hlt]), if_pos (by simp [hlt]),
          if_neg (by simp [ne_of_lt hlt]), ih hp.2, List.cons_append]
      · have hrest_lt : rest.filter (fun f => decide (f.date < d)) = [] := by
          rw [List.filter_eq_nil_iff]
          intro f hf
          simp only [decide_eq_true_eq, not_lt]
          exact heq ▸ hp.1 f hf
        have hrest_le_eq : rest.filter (fun f => decide (f.date ≤ d))
            = rest.filter (fun f => decide (f.date = d)) := by
          apply List.filter_congr
          intro f hf
          rw [decide_eq_decide]
          have h1 : d ≤ f.date := heq ▸ hp.1 f hf
          exact ⟨fun h2 => le_antisymm h2 h1, fun h2 => le_of_eq h2⟩
        rw [List.filter_cons, List.filter_cons, List.filter_cons,
          if_pos (by simp [le_of_eq heq]), if_neg (by simp [heq]),
          if_pos (by simp [heq]), hrest_lt, hrest_le_eq]
        rfl
      · have h1 : (e :: rest).filter (fun f => decide (f.date ≤ d)) = [] := by
          rw [List.filter_eq_nil_iff]
          intro f hf
          simp only [decide_eq_true_eq, not_le]
          rcases List.mem_cons.mp hf with h2 | h2
          · exact h2 ▸ hgt
          · exact lt_of_lt_of_le hgt (hp.1 f h2)
        have h2 : (e :: rest).filter (fun f => decide (f.date < d)) = [] := by
          rw [List.filter_eq_nil_iff]
          intro f hf
          simp only [decide_eq_true_eq, not_lt]
          rcases List.mem_cons.mp hf with h3 | h3
          · exact le_of_lt (h3 ▸ hgt)
          · exact le_of_lt (lt_of_lt_of_le hgt (hp.1 f h3))
        have h3 : (e :: rest).filter (fun f => decide (f.date = d)) = [] := by
          rw [List.filter_eq_nil_iff]
          intro f hf
          simp only [decide_eq_true_eq]
          rcases List.mem_cons.mp hf with h4 | h4
          · exact fun h5 => absurd (h4 ▸ h5) (ne_of_gt hgt)
          · exact fun h5 => absurd (h5 ▸ (hp.1 f h4)) (not_le.mpr (h5 ▸ hgt))
        rw [h1, h2, h3]
        rfl

/-- The carried-forward value on or before `d` is the explicit value on
`d` when there is one, else the carried value from strictly before `d`. -/
theorem lastValLE_decomp (a : Asset) (d : Date) :
    lastValLE a d = oor (lastValAt a d) (lastValLT a d) := by
  rw [lastValLE, entriesLE, filter_le_split d _ (sortHistory_sorted _),
    List.getLast?_append, oor_eq_or, lastValAt, lastValLT, entriesAt, entriesLT]
  cases ((sortHistory a.valueHistory).filter (fun e => decide (e.date = d))).getLast? with
  | none =>
      cases ((sortHistory a.valueHistory).filter (fun e => decide (e.date < d))).getLast? with
      | none => rfl
      | some g => rfl
  | some g => rfl

theorem lastValLT_eq_none (a : Asset) (d : Date)
    (h : ∀ e ∈ a.valueHistory, ¬ e.date < d) : lastValLT a d = none := by
  rw [lastValLT, entriesLT]
  rw [List.filter_eq_nil_iff.mpr (fun e he => by
    simp only [decide_eq_true_eq]
    exact h e ((mem_sortHistory _ _).mp he))]
  rfl

theorem lastValLE_shift (a : Asset) (d d₂ : Date)
    (hiff : ∀ e ∈ a.valueHistory, (e.date ≤ d ↔ e.date < d₂)) :
    lastValLE a d = lastValLT a d₂ := by
  have hfil : (sortHistory a.valueHistory).filter (fun e => decide (e.date ≤ d))
      = (sortHistory a.valueHistory).filter (fun e => decide (e.date < d₂)) := by
    apply List.filter_congr
    intro e he
    rw [decide_eq_decide]
    exact hiff e ((mem_sortHistory _ _).mp he)
  rw [lastValLE, lastValLT, entriesLE, entriesLT, hfil]

/-- The per-date walk of the merger: on a strictly ascending suffix of
dates that is closed under the later entry dates of every asset, and
starting from the carry-forward state strictly before the first date,
every emitted total is the rounded carry-forward sum of the claim. -/
theorem runDates_spec (assets : List Asset) (hnd : (assets.map Asset.id).Nodup) :
    ∀ (ds : List Date) (cur : InnerMap),
      List.Pairwise (fun x y : Date => x < y) ds →
      (∀ a ∈ assets, ∀ e ∈ a.valueHistory, ∀ d' ∈ ds, d' < e.date → e.date ∈ ds) →
      (∀ a ∈ assets, ∀ d₁ ∈ ds.head?, mapGet cur a.id = lastValLT a d₁) →
      (∀ k ∈ mapKeys cur, ∃ a ∈ assets, a.id = k) →
      (mapKeys cur).Nodup →
      runDates assets (dailyValuesMap assets) ds cur
        = ds.map (fun d =>
            ⟨d, round2 ((assets.map (fun a => (lastValLE a d).getD 0)).sum)⟩) := by
  intro ds
  induction ds with
  | nil => intro cur _ _ _ _ _; rfl
  | cons d ds' ih =>
      intro cur hsort hcover hhead hkeys hknd
      have hsortc := List.pairwise_cons.mp hsort
      have hdlt : ∀ d' ∈ ds', d < d' := hsortc.1
      have hhead' : ∀ a ∈ assets, mapGet cur a.id = lastValLT a d := by
        intro a ha
        exact hhead a ha d (Option.mem_def.mpr rfl)
      have hcur'get : ∀ a ∈ assets,
          mapGet (stepDate assets (dailyValuesMap assets) d cur) a.id
            = lastValLE a d := by
        intro a ha
        rw [stepDate_get assets hnd _ d cur a ha, dailyValuesMap_get assets hnd a ha d,
          hhead' a ha, ← lastValLE_decomp]
      have hkeys' : ∀ k ∈ mapKeys (stepDate assets (dailyValuesMap assets) d cur),
          ∃ a ∈ assets, a.id = k := by
        intro k hk
        rw [stepDate_eq_foldl] at hk
        rcases stepFold_keys _ _ assets cur k hk with h | h
        · exact hkeys k h
        · obtain ⟨b, hb, hb2⟩ := h
          exact ⟨b, hb, hb2⟩
      have hknd' : (mapKeys (stepDate assets (dailyValuesMap assets) d cur)).Nodup := by
        rw [stepDate_eq_foldl]
        exact stepFold_keys_nodup _ _ assets cur hknd
      have hsum : mapSumQ (stepDate assets (dailyValuesMap assets) d cur)
          = (assets.map (fun a => (lastValLE a d).getD 0)).sum :=
        mapSumQ_of_pointwise assets _ (fun a => lastValLE a d) hnd hkeys' hknd' hcur'get
      rw [runDates, List.map_cons, hsum]
      congr 1
      have hcover' : ∀ a ∈ assets, ∀ e ∈ a.valueHistory, ∀ d' ∈ ds',
          d' < e.date → e.date ∈ ds' := by
        intro a ha e he d' hd' hlt
        have h1 := hcover a ha e he d' (List.mem_cons_of_mem _ hd') hlt
        rcases List.mem_cons.mp h1 with h2 | h2
        · exfalso
          rw [h2] at hlt
          exact absurd (lt_trans (hdlt d' hd') hlt) (lt_irrefl d)
        · exact h2
      have hhead2 : ∀ a ∈ assets, ∀ d₂ ∈ ds'.head?,
          mapGet (stepDate assets (dailyValuesMap assets) d cur) a.id
            = lastValLT a d₂ := by
        intro a ha d₂ hd₂
        rw [hcur'get a ha]
        apply lastValLE_shift a d d₂
        intro e he
        have hd₂mem : d₂ ∈ ds' := List.mem_of_mem_head? hd₂
        constructor
        · intro h1
          exact lt_of_le_of_lt h1 (hdlt d₂ hd₂mem)
        · intro h1
          by_contra h2
          rw [not_le] at h2
          have h3 := hcover a ha e he d (List.mem_cons_self _ _) h2
          rcases List.mem_cons.mp h3 with h4 | h4
          · exact absurd (h4 ▸ h2) (lt_irrefl d)
          · cases ds' with
            | nil => cases h4
            | cons x rest =>
                have hx : d₂ = x := by
                  rw [Option.mem_def] at hd₂
                  simp only [List.head?_cons, Option.some.injEq] at hd₂
                  exact hd₂.symm
                rcases List.mem_cons.mp h4 with h5 | h5
                · rw [h5, ← hx] at h1
                  exact absurd h1 (lt_irrefl _)
                · have h6 := (List.pairwise_cons.mp hsortc.2).1 e.date h5
                  rw [← hx] at h6
                  exact absurd (lt_trans h1 h6) (lt_irrefl _)
      exact ih _ hsortc.2 hcover' hhead2 hkeys' hknd'

theorem specTotal_eq (assets : List Asset) (d : Date) :
    specTotal assets d = (assets.map (fun a => (lastValLE a d).getD 0)).sum := by
  rw [specTotal]
  induction assets with
  | nil => rfl
  | cons a rest ih =>
      rw [List.map_cons, List.sum_cons, List.filter_cons]
      cases hh : lastValLE a d with
      | some v =>
          rw [if_pos (show (some v).isSome = true from rfl), List.map_cons,
            List.sum_cons, ih, hh]
      | none =>
          rw [if_neg (by simp), ih]
          simp

/-- C1: for a collection of assets with pairwise-distinct ids, the
merged series has exactly one point per distinct date occurring in any
asset's valueHistory, in strictly ascending date order, and each
point's total is the claim's carry-forward sum — over the assets having
at least one entry on or before the date, the most recent such entry's
value — rounded to two decimals; an asset with no entry on or before
the date contributes nothing. -/
theorem calculateNetWorthHistory_chartData_spec (assets : List Asset)
    (hnd : (assets.map Asset.id).Nodup) :
    (calculateNetWorthHistory assets).chartData
      = (uniqueDates assets).map (fun d => ⟨d, round2 (specTotal assets d)⟩) ∧
    List.Pairwise (fun p q : NetWorthPoint => p.date < q.date)
      (calculateNetWorthHistory assets).chartData ∧
    (∀ d : Date,
      (∃ p ∈ (calculateNetWorthHistory assets).chartData, p.date = d) ↔
        ∃ a ∈ assets, ∃ e ∈ a.valueHistory, e.date = d) := by
  have hmain : (calculateNetWorthHistory assets).chartData
      = (uniqueDates assets).map (fun d => ⟨d, round2 (specTotal assets d)⟩) := by
    show runDates assets (dailyValuesMap assets) (uniqueDates assets) [] = _
    have hcover : ∀ a ∈ assets, ∀ e ∈ a.valueHistory, ∀ d' ∈ uniqueDates assets,
        d' < e.date → e.date ∈ uniqueDates assets := by
      intro a ha e he _ _ _
      exact (mem_uniqueDates assets e.date).mpr ⟨a, ha, e, he, rfl⟩
    have hhead : ∀ a ∈ assets, ∀ d₁ ∈ (uniqueDates assets).head?,
        mapGet ([] : InnerMap) a.id = lastValLT a d₁ := by
      intro a ha d₁ hd₁
      have h1 : mapGet ([] : InnerMap) a.id = none := rfl
      rw [h1]
      symm
      apply lastValLT_eq_none
      intro e he hlt
      have h2 : e.date ∈ uniqueDates assets :=
        (mem_uniqueDates assets e.date).mpr ⟨a, ha, e, he, rfl⟩
      have hsorted := uniqueDates_sorted_lt assets
      cases hu : uniqueDates assets with
      | nil =>
          rw [hu] at h2
          cases h2
      | cons x tail =>
          rw [hu] at hd₁ h2 hsorted
          have hx : x = d₁ := by simpa using hd₁
          rcases List.mem_cons.mp h2 with h3 | h3
          · rw [h3, ← hx] at hlt
            exact absurd hlt (lt_irrefl x)
          · have h4 := (List.pairwise_cons.mp hsorted).1 e.date h3
            rw [← hx] at hlt
            exact absurd (lt_trans hlt h4) (lt_irrefl _)
    rw [runDates_spec assets hnd (uniqueDates assets) [] (uniqueDates_sorted_lt assets)
      hcover hhead (fun k hk => absurd hk (List.not_mem_nil k)) List.nodup_nil]
    apply List.map_congr_left
    intro d hd
    rw [specTotal_eq]
  refine ⟨hmain, ?_, ?_⟩
  · rw [hmain, List.pairwise_map]
    exact (uniqueDates_sorted_lt assets).imp (fun h => h)
  · intro d
    rw [hmain]
    constructor
    · rintro ⟨p, hp, rfl⟩
      obtain ⟨d', hd', hpd⟩ := List.mem_map.mp hp
      rw [← hpd]
      exact (mem_uniqueDates assets d').mp hd'
    · intro h
      have h2 : d ∈ uniqueDates assets := (mem_uniqueDates assets d).mpr h
      exact ⟨⟨d, round2 (specTotal assets d)⟩, List.mem_map_of_mem _ h2, rfl⟩

/-- C2 (amended): the per-date breakdown lookup
(`detailedDailyValues`) has an entry for a date exactly when some asset
recorded a value on that exact date, and for each asset it reports the
asset's value recorded exactly on that date (last write of that date
winning) — NOT the carry-forward last-known value: an asset whose
entries all lie strictly before the date is absent from that date's
breakdown (see the counterexample). -/
theorem detailedDailyValues_spec (assets : List Asset)
    (hnd : (assets.map Asset.id).Nodup) :
    (∀ d : Date,
      (mapGet (calculateNetWorthHistory assets).detailedDailyValues d).isSome ↔
        ∃ a ∈ assets, ∃ e ∈ a.valueHistory, e.date = d) ∧
    (∀ a ∈ assets, ∀ d : Date,
      mapGet₂ (calculateNetWorthHistory assets).detailedDailyValues d a.id
        = lastValAt a d) := by
  constructor
  · intro d
    show (mapGet (dailyValuesMap assets) d).isSome ↔ _
    rw [← mem_keys_dailyValuesMap]
    constructor
    · intro h
      by_contra h2
      rw [(mapGet_eq_none_iff _ _).mpr h2] at h
      exact absurd h (by simp)
    · intro h
      cases hg : mapGet (dailyValuesMap assets) d with
      | none => exact absurd h ((mapGet_eq_none_iff _ _).mp hg)
      | some o => rfl
  · intro a ha d
    exact dailyValuesMap_get assets hnd a ha d

/-- The spec's example asset A: one valuation of 100 on 2024-01-01. -/
def exAssetA : Asset := ⟨"a", "A", "Cash", 100, 100, [], [⟨100, ⟨2024, 1, 1⟩, none⟩]⟩

/-- The spec's example asset B: one valuation of 50 on 2024-01-02. -/
def exAssetB : Asset := ⟨"b", "B", "Cash", 50, 50, [], [⟨50, ⟨2024, 1, 2⟩, none⟩]⟩

/-- C2 counterexample: on 2024-01-02 asset A has a known (carried
forward) value of 100, and the breakdown lookup does have an entry for
that date, yet it contains no entry for A — the breakdown is not a
snapshot of the carry-forward last-known-value map. -/
theorem c2_breakdown_not_carried_forward :
    lastValLE exAssetA ⟨2024, 1, 2⟩ = some 100 ∧
    (mapGet (calculateNetWorthHistory [exAssetA, exAssetB]).detailedDailyValues
      ⟨2024, 1, 2⟩).isSome ∧
    mapGet₂ (calculateNetWorthHistory [exAssetA, exAssetB]).detailedDailyValues
      ⟨2024, 1, 2⟩ "a" = none := by
  refine ⟨?_, ?_, ?_⟩
  · simp [lastValLE, entriesLE, sortHistory, List.mergeSort, exAssetA, Date.le_def]
  · simp [calculateNetWorthHistory, dailyValuesMap, insertAssetEntries, insEntries,
      sortHistory, List.mergeSort, mapSet, mapGet, exAssetA, exAssetB]
  · simp [calculateNetWorthHistory, dailyValuesMap, insertAssetEntries, insEntries,
      sortHistory, List.mergeSort, mapSet, mapGet, mapGet₂, exAssetA, exAssetB]

/-- Witness for the amended C2 theorem at the example assets. -/
theorem detailedDailyValues_spec_witness :
    mapGet₂ (calculateNetWorthHistory [exAssetA, exAssetB]).detailedDailyValues
      ⟨2024, 1, 1⟩ "a" = lastValAt exAssetA ⟨2024, 1, 1⟩ :=
  (detailedDailyValues_spec [exAssetA, exAssetB] (by decide)).2 exAssetA
    (List.mem_cons_self _ _) ⟨2024, 1, 1⟩

/-- Witness for C1: the spec's two-asset example produces the series
[(2024-01-01, 100), (2024-01-02, 150)], and the main theorem applies. -/
theorem calculateNetWorthHistory_chartData_spec_witness :
    (calculateNetWorthHistory [exAssetA, exAssetB]).chartData
      = [⟨⟨2024, 1, 1⟩, 100⟩, ⟨⟨2024, 1, 2⟩, 150⟩] ∧
    List.Pairwise (fun p q : NetWorthPoint => p.date < q.date)
      (calculateNetWorthHistory [exAssetA, exAssetB]).chartData := by
  refine ⟨?_, (calculateNetWorthHistory_chartData_spec [exAssetA, exAssetB]
    (by decide)).2.1⟩
  norm_num [calculateNetWorthHistory, dailyValuesMap, insertAssetEntries, insEntries,
    sortHistory, List.mergeSort, List.merge, uniqueDates, mapKeys, runDates, stepDate,
    mapSet, mapGet, mapGet₂, mapSumQ, exAssetA, exAssetB, round2, Date.le_def, dateLeb]
  have hab : (("a" : String) = "b") = False := eq_false (by decide)
  simp only [hab, if_false]
  norm_num [List.foldl]
